import Mathlib

set_option maxRecDepth 4000

/-!
Verification of the huffman-rs repository (src/main.rs).

The development shallowly embeds the Rust program:

* `HuffmanNode`, `HuffmanNode.frequency` — the tagged tree type and its
  on-demand frequency computation (`impl HuffmanNode`, lines 23–35).
* `cmpNode` — the `Ord for HuffmanNode` implementation (lines 37–48): the
  primary key reverses the frequency comparison
  (`other.frequency().cmp(&self.frequency())`) and, when both nodes are
  leaves of equal frequency, falls back to the reversed character
  comparison (`character.cmp(self_char)` where `character` is the other
  node's character).
* `siftUpF`, `siftDownF`, `heapPush`, `heapPop` — Rust's
  `std::collections::BinaryHeap` push/pop on a `Vec`, as implemented in the
  Rust standard library (`sift_up`, `sift_down_to_bottom`, with the hole
  optimisation made explicit).  `BinaryHeap` is a max-heap, so with `cmpNode`
  the node of least frequency is extracted first.  The recursions are given
  explicit fuel so that every function is structurally recursive and can be
  evaluated by the kernel; the fuel passed by the wrappers
  (`pos` for sift-up, the array length for sift-down and for the build loop)
  always dominates the number of iterations the Rust loops perform, so the
  fuel-exhausted base cases are never taken.
* `buildLoopF`, `buildHuffmanTree` — `build_huffman_tree` (lines 64–85).
  The final `heap.pop().unwrap()` panics on an empty heap; the embedding
  returns `Option HuffmanNode`, with `none` standing for that panic.
* `generateHuffmanCodes` — `generate_huffman_codes` (lines 87–97).  The Rust
  function accumulates `codes.insert(*character, prefix)` calls into a
  `HashMap`; the embedding returns the list of inserted (character, code)
  pairs in insertion (depth-first) order.  Whenever the leaf characters are
  distinct — in particular for every tree built from a `HashMap` of
  frequencies, whose keys are distinct — no insert overwrites another and
  the list carries exactly the key/value pairs of the resulting `HashMap`.
* `getFrequencies`, `getFrequenciesFromReader` — the frequency aggregator
  (lines 99–123).  A `HashMap<char, u32>` is embedded as its counting
  function `Char → Nat`: an entry is present exactly when its count is
  positive (entries are created by `or_insert(0)` followed by `+= 1`), so
  two maps are equal iff the embedded functions are.  The reader loop is
  embedded as a fold over the list of chunks that `read_line` yields.
-/

/-- The `HuffmanNode` enum of src/main.rs: an internal node owns two
children; a leaf holds a character and its frequency. -/
inductive HuffmanNode where
  | Internal (left : HuffmanNode) (right : HuffmanNode)
  | Leaf (character : Char) (frequency : Nat)
deriving Repr, DecidableEq

/-- `HuffmanNode::frequency` (src/main.rs lines 28–35): computed on demand,
an internal node's frequency is the sum of its children's. -/
def HuffmanNode.frequency : HuffmanNode → Nat
  | .Internal left right => left.frequency + right.frequency
  | .Leaf _ f => f

/-- `Ord for HuffmanNode` (src/main.rs lines 37–48).  The frequency
comparison is reversed (`other` against `self`); on equal frequencies, if
either node is internal the result is `Equal`, and for two leaves the
character comparison is also reversed (`character.cmp(self_char)`). -/
def cmpNode (self other : HuffmanNode) : Ordering :=
  let ordering := compare other.frequency self.frequency
  if ordering = Ordering.eq then
    match self, other with
    | .Leaf sc _, .Leaf oc _ => compare oc sc
    | _, _ => ordering
  else ordering

/-- Rust's `a <= b` derived from `Ord`: the comparison is not `Greater`. -/
def nodeLE (a b : HuffmanNode) : Bool :=
  cmpNode a b != Ordering.gt

/-- Reading a slot of the heap's backing vector.  All reads performed by the
sift routines are in bounds, so the default value is never produced. -/
def hget (dat : List HuffmanNode) (i : Nat) : HuffmanNode :=
  dat.getD i (.Leaf 'A' 0)

/-- Index of the parent slot in the implicit binary-tree layout of the
heap's backing vector. -/
def parentIdx (i : Nat) : Nat := (i - 1) / 2

/-- Rust std's `BinaryHeap::sift_up` with the hole made explicit: `e` is the
element removed at slot `pos`; while the hole is above `start` and `e` is
greater than the value at the parent slot, that value moves down into the
hole and the hole ascends; finally `e` is written into the hole.  One unit
of fuel per loop iteration; the hole index strictly decreases, so fuel
`pos` suffices, and exhausted fuel performs the same final write. -/
def siftUpF : Nat → List HuffmanNode → Nat → Nat → HuffmanNode → List HuffmanNode × Nat
  | 0, dat, _, pos, e => (dat.set pos e, pos)
  | fuel + 1, dat, start, pos, e =>
    if start < pos then
      if nodeLE e (hget dat (parentIdx pos)) then (dat.set pos e, pos)
      else siftUpF fuel (dat.set pos (hget dat (parentIdx pos))) start (parentIdx pos) e
    else (dat.set pos e, pos)

/-- `BinaryHeap::push` (Rust std): append the element, then sift it up from
the former length. -/
def heapPush (dat : List HuffmanNode) (x : HuffmanNode) : List HuffmanNode :=
  (siftUpF dat.length (dat ++ [x]) 0 dat.length x).1

/-- The descent loop of Rust std's `BinaryHeap::sift_down_to_bottom`: the
hole at `pos` walks to the bottom of the tree, always moving the greater
child up (on ties the right child, per `<=` choosing `child + 1`), and the
final hole position is returned.  The hole index strictly increases and is
bounded by the length, so fuel `dat.length` suffices; exhausted fuel stops
the walk exactly like the no-children exit. -/
def siftDownF : Nat → List HuffmanNode → Nat → List HuffmanNode × Nat
  | 0, dat, pos => (dat, pos)
  | fuel + 1, dat, pos =>
    if 2 * pos + 1 + 1 < dat.length then
      if nodeLE (hget dat (2 * pos + 1)) (hget dat (2 * pos + 1 + 1)) then
        siftDownF fuel (dat.set pos (hget dat (2 * pos + 1 + 1))) (2 * pos + 1 + 1)
      else
        siftDownF fuel (dat.set pos (hget dat (2 * pos + 1))) (2 * pos + 1)
    else if 2 * pos + 1 + 1 = dat.length then
      (dat.set pos (hget dat (2 * pos + 1)), 2 * pos + 1)
    else (dat, pos)

/-- `BinaryHeap::pop` (Rust std): remove the last element; if the heap is
still non-empty, swap it with the root, let the root hole sift down to the
bottom and then sift the removed last element up from there
(`sift_down_to_bottom`), and return the old root. -/
def heapPop (dat : List HuffmanNode) : Option (HuffmanNode × List HuffmanNode) :=
  match dat.getLast? with
  | none => none
  | some last =>
    let rest := dat.dropLast
    if rest.isEmpty then some (last, rest)
    else
      let item := hget rest 0
      let sd := siftDownF rest.length rest 0
      some (item, (siftUpF sd.2 sd.1 0 sd.2 last).1)

/-- The `while heap.len() > 1` loop of `build_huffman_tree` (src/main.rs
lines 72–82): pop two nodes, the first popped becoming the left child, and
push the new internal node.  Each iteration shrinks the heap by one, so
fuel `heap.length` suffices.  The `none` match arms model the `unwrap`s,
which are unreachable while the length exceeds one. -/
def buildLoopF : Nat → List HuffmanNode → List HuffmanNode
  | 0, heap => heap
  | fuel + 1, heap =>
    if heap.length > 1 then
      match heapPop heap with
      | none => heap
      | some (left, h1) =>
        match heapPop h1 with
        | none => h1
        | some (right, h2) => buildLoopF fuel (heapPush h2 (.Internal left right))
    else heap

/-- Running `build_huffman_tree` from an already-populated heap: the loop
followed by `heap.pop().unwrap()`, whose panic on an empty heap is the
`none` result. -/
def buildFromHeap (heap : List HuffmanNode) : Option HuffmanNode :=
  (heapPop (buildLoopF heap.length heap)).map Prod.fst

/-- `build_huffman_tree` (src/main.rs lines 64–85).  The `HashMap` argument
is embedded as the list of its (character, frequency) entries in the order
the iterator yields them; one leaf is pushed per entry. -/
def buildHuffmanTree (freqMap : List (Char × Nat)) : Option HuffmanNode :=
  buildFromHeap (freqMap.foldl (fun h p => heapPush h (.Leaf p.1 p.2)) [])

/-- `generate_huffman_codes` (src/main.rs lines 87–97) as the list of
`codes.insert(...)` calls it performs, in order: depth-first, appending
"0" to the prefix on the left child and "1" on the right, recording the
accumulated prefix at each leaf. -/
def generateHuffmanCodes : HuffmanNode → String → List (Char × String)
  | .Leaf c _, pfx => [(c, pfx)]
  | .Internal left right, pfx =>
    generateHuffmanCodes left (pfx ++ "0") ++ generateHuffmanCodes right (pfx ++ "1")

/-- `get_frequencies` (src/main.rs lines 116–123): fold over the line's
characters, incrementing the character's entry (created at 0 if absent).
The map is embedded as its counting function. -/
def getFrequencies (line : List Char) : Char → Nat :=
  line.foldl (fun freqs c => fun c' => if c' = c then freqs c' + 1 else freqs c') (fun _ => 0)

/-- `get_frequencies_from_reader` (src/main.rs lines 99–114): for each chunk
the reader yields, add the chunk's frequency map into the accumulator
(`*frequencies.entry(key).or_insert(0) += value` for every entry of the
chunk's map; characters absent from the chunk's map — count 0 — are
untouched, which the pointwise sum reproduces). -/
def getFrequenciesFromReader (chunks : List (List Char)) : Char → Nat :=
  chunks.foldl (fun freqs line => fun c => freqs c + getFrequencies line c) (fun _ => 0)

/-- The (character, frequency) leaf entries of a tree, in left-to-right
order. -/
def HuffmanNode.leafList : HuffmanNode → List (Char × Nat)
  | .Leaf c f => [(c, f)]
  | .Internal left right => left.leafList ++ right.leafList

/-- The spec's tree frequency invariant, read off every node of a tree:
each internal node's frequency equals the sum of its children's. -/
def freqInvariant : HuffmanNode → Prop
  | .Leaf _ _ => True
  | .Internal left right =>
    (HuffmanNode.Internal left right).frequency = left.frequency + right.frequency ∧
      freqInvariant left ∧ freqInvariant right

/-- The binary-heap shape invariant of the backing vector: every slot but
the root compares `<=` its parent slot. -/
def heapProp (h : List HuffmanNode) : Prop :=
  ∀ i, 0 < i → i < h.length → nodeLE (hget h i) (hget h (parentIdx i)) = true

/-- Transitivity of the heap order on the elements of a given list of
nodes.  `cmpNode` is not transitive in general (equal-frequency comparisons
involving an internal node are all `Equal`), so heap reasoning assumes it
on the finite set of nodes a given run manipulates, where it is checked by
evaluation. -/
def transOn (S : List HuffmanNode) : Prop :=
  ∀ x, x ∈ S → ∀ y, y ∈ S → ∀ z, z ∈ S →
    nodeLE x y = true → nodeLE y z = true → nodeLE x z = true

/-- All (character, frequency) leaf entries stored anywhere in a heap. -/
def heapEntries (h : List HuffmanNode) : Multiset (Char × Nat) :=
  (h.map fun n => (n.leafList : Multiset (Char × Nat))).sum

/-- The frequency map of the spec's concrete scenario 3, in ascending
character order. -/
def scenarioFreqs : List (Char × Nat) :=
  [('C', 32), ('D', 42), ('E', 120), ('K', 7), ('L', 42), ('M', 24), ('U', 37), ('Z', 2)]

/-- The leaves pushed for `scenarioFreqs`. -/
def scenarioLeaves : List HuffmanNode :=
  scenarioFreqs.map fun p => .Leaf p.1 p.2

/-- The unique Huffman tree the builder produces for `scenarioFreqs`. -/
def scenarioTree : HuffmanNode :=
  .Internal (.Leaf 'E' 120)
    (.Internal
      (.Internal (.Leaf 'U' 37) (.Leaf 'D' 42))
      (.Internal (.Leaf 'L' 42)
        (.Internal (.Leaf 'C' 32)
          (.Internal (.Internal (.Leaf 'Z' 2) (.Leaf 'K' 7)) (.Leaf 'M' 24)))))

/-- The code table of the spec's concrete scenario 3, in the insertion
order `generate_huffman_codes` produces. -/
def scenarioTable : List (Char × String) :=
  [('E', "0"), ('U', "100"), ('D', "101"), ('L', "110"),
   ('C', "1110"), ('Z', "111100"), ('K', "111101"), ('M', "11111")]

/-- A frequency map exhibiting the builder's sensitivity to the entry
enumeration order: two equal-frequency leaves plus three more leaves whose
frequency ties the internal node formed from the first two. -/
def unstableFreqs : List (Char × Nat) :=
  [('a', 1), ('b', 1), ('c', 2), ('d', 2), ('e', 2)]

/-- Shorthand for the leaves of scenario 3. -/
def nZ : HuffmanNode := .Leaf 'Z' 2
def nK : HuffmanNode := .Leaf 'K' 7
def nM : HuffmanNode := .Leaf 'M' 24
def nC : HuffmanNode := .Leaf 'C' 32
def nU : HuffmanNode := .Leaf 'U' 37
def nD : HuffmanNode := .Leaf 'D' 42
def nL : HuffmanNode := .Leaf 'L' 42
def nE : HuffmanNode := .Leaf 'E' 120

/-- The internal nodes created by the seven loop iterations of the
builder's run on scenario 3, in creation order. -/
def i1 : HuffmanNode := .Internal nZ nK
def i2 : HuffmanNode := .Internal i1 nM
def i3 : HuffmanNode := .Internal nC i2
def i4 : HuffmanNode := .Internal nU nD
def i5 : HuffmanNode := .Internal nL i3
def i6 : HuffmanNode := .Internal i4 i5
def i7 : HuffmanNode := .Internal nE i6

/-- Every node the scenario-3 run ever stores in its priority queue.  The
heap comparison is transitive on this set (checked by evaluation), which
is what makes the run's extraction order independent of the heap's
internal layout. -/
def scenarioNodes : List HuffmanNode :=
  [nZ, nK, nM, nC, nU, nD, nL, nE, i1, i2, i3, i4, i5, i6, i7]

/-!  Basic facts about the comparison. -/

theorem charCompare_lt {a b : Char} (h : a < b) : compare a b = Ordering.lt := by
  have h2 : a ≠ b := ne_of_lt h
  show compareOfLessAndEq a b = Ordering.lt
  simp [compareOfLessAndEq, h, h2]

theorem charCompare_gt {a b : Char} (h : b < a) : compare a b = Ordering.gt := by
  have h1 : ¬ a < b := lt_asymm h
  have h2 : a ≠ b := ne_of_gt h
  show compareOfLessAndEq a b = Ordering.gt
  simp [compareOfLessAndEq, h1, h2]

theorem charCompare_self (a : Char) : compare a a = Ordering.eq := by
  have h1 : ¬ a < a := lt_irrefl a
  show compareOfLessAndEq a a = Ordering.eq
  simp [compareOfLessAndEq, h1]

/-- `nodeLE` is false exactly when the comparison is `Greater`. -/
theorem nodeLE_eq_false_iff {a b : HuffmanNode} :
    nodeLE a b = false ↔ cmpNode a b = Ordering.gt := by
  unfold nodeLE
  cases h : cmpNode a b <;> decide

theorem nodeLE_eq_true_iff {a b : HuffmanNode} :
    nodeLE a b = true ↔ cmpNode a b ≠ Ordering.gt := by
  unfold nodeLE
  cases h : cmpNode a b <;> decide

/-- The reversed comparison never reports `Greater` against itself. -/
theorem nodeLE_refl (a : HuffmanNode) : nodeLE a a = true := by
  rw [nodeLE_eq_true_iff]
  unfold cmpNode
  rw [Nat.compare_eq_eq.2 rfl]
  rcases a with ⟨l, r⟩ | ⟨c, f⟩ <;> simp [charCompare_self]

/-- Asymmetry of the heap comparison: if `a` is strictly greater than `b`
then `b` is strictly less than `a`. -/
theorem cmpNode_asymm {a b : HuffmanNode} (h : cmpNode a b = Ordering.gt) :
    cmpNode b a = Ordering.lt := by
  rcases Nat.lt_trichotomy a.frequency b.frequency with hf | hf | hf
  · unfold cmpNode
    rw [Nat.compare_eq_lt.2 hf]
    simp
  · unfold cmpNode at h ⊢
    rw [Nat.compare_eq_eq.2 hf.symm] at h
    rw [Nat.compare_eq_eq.2 hf]
    simp only [reduceIte] at h ⊢
    rcases a with ⟨al, ar⟩ | ⟨ac, af⟩ <;> rcases b with ⟨bl, br⟩ | ⟨bc, bf⟩ <;>
      simp_all
    rcases lt_trichotomy ac bc with hc | hc | hc
    · rw [charCompare_lt hc]
    · subst hc; rw [charCompare_self] at h; simp at h
    · rw [charCompare_lt hc] at h; simp at h
  · unfold cmpNode at h
    rw [Nat.compare_eq_lt.2 hf] at h
    simp at h

/-- Totality of the heap's `<=`: when `a <= b` fails, `b <= a` holds. -/
theorem nodeLE_of_not_nodeLE {a b : HuffmanNode} (h : nodeLE a b = false) :
    nodeLE b a = true := by
  rw [nodeLE_eq_false_iff] at h
  rw [nodeLE_eq_true_iff, cmpNode_asymm h]
  simp

/-!  Reading, writing and removing heap slots. -/

theorem hget_set_self {l : List HuffmanNode} {i : Nat} (h : i < l.length)
    (v : HuffmanNode) : hget (l.set i v) i = v := by
  induction l generalizing i with
  | nil => simp at h
  | cons x xs ih =>
    cases i with
    | zero => rfl
    | succ j => simpa [hget, List.set, List.getD] using ih (Nat.lt_of_succ_lt_succ h)

theorem hget_set_ne {l : List HuffmanNode} {i j : Nat} (h : i ≠ j)
    (v : HuffmanNode) : hget (l.set j v) i = hget l i := by
  induction l generalizing i j with
  | nil => rfl
  | cons x xs ih =>
    cases j with
    | zero =>
      cases i with
      | zero => exact absurd rfl h
      | succ i' => rfl
    | succ j' =>
      cases i with
      | zero => rfl
      | succ i' =>
        have hne : i' ≠ j' := fun he => h (by rw [he])
        simpa [hget, List.set, List.getD] using ih hne

theorem hget_mem {l : List HuffmanNode} {i : Nat} (h : i < l.length) :
    hget l i ∈ l := by
  induction l generalizing i with
  | nil => simp at h
  | cons x xs ih =>
    cases i with
    | zero => exact List.mem_cons_self x xs
    | succ j =>
      exact List.mem_cons_of_mem x (ih (Nat.lt_of_succ_lt_succ h))

theorem mem_of_mem_set {l : List HuffmanNode} {i : Nat} {v a : HuffmanNode}
    (h : a ∈ l.set i v) : a ∈ l ∨ a = v := by
  induction l generalizing i with
  | nil => simp [List.set] at h
  | cons x xs ih =>
    cases i with
    | zero =>
      rcases List.mem_cons.1 h with h | h
      · exact Or.inr h
      · exact Or.inl (List.mem_cons_of_mem x h)
    | succ j =>
      rcases List.mem_cons.1 h with h | h
      · exact Or.inl (h ▸ List.mem_cons_self x xs)
      · rcases ih h with h | h
        · exact Or.inl (List.mem_cons_of_mem x h)
        · exact Or.inr h

theorem hget_append_left {l l2 : List HuffmanNode} {i : Nat}
    (h : i < l.length) : hget (l ++ l2) i = hget l i := by
  induction l generalizing i with
  | nil => simp at h
  | cons x xs ih =>
    cases i with
    | zero => rfl
    | succ j => simpa [hget, List.getD] using ih (Nat.lt_of_succ_lt_succ h)

theorem hget_dropLast {l : List HuffmanNode} {i : Nat}
    (h : i + 1 < l.length) : hget l.dropLast i = hget l i := by
  induction l generalizing i with
  | nil => simp at h
  | cons x xs ih =>
    cases xs with
    | nil => simp at h
    | cons y ys =>
      cases i with
      | zero => rfl
      | succ j =>
        simpa [hget, List.getD, List.dropLast] using
          ih (Nat.lt_of_succ_lt_succ h)

/-- Overwriting slot `i` is, as a multiset, removing the old value at `i`
and adding the new one. -/
theorem coe_set_eq {l : List HuffmanNode} {i : Nat} (h : i < l.length)
    (v : HuffmanNode) :
    ((l.set i v : List HuffmanNode) : Multiset HuffmanNode) =
      v ::ₘ ((l.eraseIdx i : List HuffmanNode) : Multiset HuffmanNode) := by
  induction l generalizing i with
  | nil => simp at h
  | cons x xs ih =>
    cases i with
    | zero => simp [List.set, List.eraseIdx]
    | succ j =>
      have hj := ih (Nat.lt_of_succ_lt_succ h)
      simp only [List.set, List.eraseIdx]
      rw [← Multiset.cons_coe, ← Multiset.cons_coe, hj, Multiset.cons_swap]

/-- Splitting a list, as a multiset, at the value stored in slot `i`. -/
theorem coe_eq_hget_cons_eraseIdx {l : List HuffmanNode} {i : Nat}
    (h : i < l.length) :
    ((l : List HuffmanNode) : Multiset HuffmanNode) =
      hget l i ::ₘ ((l.eraseIdx i : List HuffmanNode) : Multiset HuffmanNode) := by
  induction l generalizing i with
  | nil => simp at h
  | cons x xs ih =>
    cases i with
    | zero => simp [hget, List.eraseIdx]
    | succ j =>
      have hj := ih (Nat.lt_of_succ_lt_succ h)
      simp only [List.eraseIdx]
      rw [← Multiset.cons_coe, ← Multiset.cons_coe]
      calc (x ::ₘ (xs : Multiset HuffmanNode))
          = x ::ₘ (hget xs j ::ₘ ((xs.eraseIdx j : List HuffmanNode) : Multiset HuffmanNode)) := by
            rw [← hj]
        _ = hget (x :: xs) (j + 1) ::ₘ x ::ₘ ((xs.eraseIdx j : List HuffmanNode) : Multiset HuffmanNode) := by
            rw [Multiset.cons_swap]; rfl

/-- Removing the appended final element gives back the original list. -/
theorem eraseIdx_append_singleton (l : List HuffmanNode) (x : HuffmanNode) :
    (l ++ [x]).eraseIdx l.length = l := by
  induction l with
  | nil => rfl
  | cons y ys ih => simp [List.eraseIdx, ih]

/-!  Arithmetic of the implicit tree layout. -/

theorem parentIdx_lt {i : Nat} (h : 0 < i) : parentIdx i < i := by
  unfold parentIdx
  calc (i - 1) / 2 ≤ i - 1 := Nat.div_le_self _ _
    _ < i := by omega

theorem le_of_parentIdx_eq {i p : Nat} (h0 : 0 < i) (h : parentIdx i = p) :
    2 * p + 1 ≤ i := by
  unfold parentIdx at h
  have hle : (i - 1) / 2 * 2 ≤ i - 1 := Nat.div_mul_le_self _ _
  rw [h] at hle
  omega

theorem lt_of_parentIdx_eq {i p : Nat} (h0 : 0 < i) (h : parentIdx i = p) :
    i ≤ 2 * p + 2 := by
  unfold parentIdx at h
  have hlt : (i - 1) / 2 < p + 1 := by omega
  have := (Nat.div_lt_iff_lt_mul (by omega : 0 < 2)).1 hlt
  omega

theorem parentIdx_left (p : Nat) : parentIdx (2 * p + 1) = p := by
  unfold parentIdx
  omega

theorem parentIdx_right (p : Nat) : parentIdx (2 * p + 2) = p := by
  unfold parentIdx
  have : 2 * p + 2 - 1 = 2 * p + 1 := by omega
  rw [this]
  omega

/-!  Length and multiset content of the sift routines. -/

theorem siftUpF_length : ∀ (fuel : Nat) (dat : List HuffmanNode)
    (start pos : Nat) (e : HuffmanNode),
    (siftUpF fuel dat start pos e).1.length = dat.length := by
  intro fuel
  induction fuel with
  | zero => intro dat start pos e; simp [siftUpF]
  | succ n ih =>
    intro dat start pos e
    unfold siftUpF
    split
    · split
      · simp
      · rw [ih]; simp
    · simp

theorem siftDownF_length : ∀ (fuel : Nat) (dat : List HuffmanNode) (pos : Nat),
    (siftDownF fuel dat pos).1.length = dat.length := by
  intro fuel
  induction fuel with
  | zero => intro dat pos; simp [siftDownF]
  | succ n ih =>
    intro dat pos
    unfold siftDownF
    split
    · split <;> (rw [ih]; simp)
    · split <;> simp

theorem heapPush_length (dat : List HuffmanNode) (x : HuffmanNode) :
    (heapPush dat x).length = dat.length + 1 := by
  unfold heapPush
  rw [siftUpF_length]
  simp

/-- Removing the value written over slot `c` from the array where slot
`pos` was overwritten by the value of slot `c` amounts to removing the
original value of slot `pos`. -/
theorem eraseIdx_set_cancel {dat : List HuffmanNode} {pos c : Nat}
    (hc : c < dat.length) (hne : c ≠ pos) (hpos : pos < dat.length) :
    (((dat.set pos (hget dat c)).eraseIdx c : List HuffmanNode) : Multiset HuffmanNode) =
      ((dat.eraseIdx pos : List HuffmanNode) : Multiset HuffmanNode) := by
  have hclen : c < (dat.set pos (hget dat c)).length := by simpa using hc
  have hA := coe_eq_hget_cons_eraseIdx hclen
  rw [hget_set_ne hne] at hA
  have hB := coe_set_eq hpos (hget dat c)
  exact (Multiset.cons_inj_right _).1 (hA.symm.trans hB)

/-- Sift-up fills its hole: the resulting array is, as a multiset, the
array without the hole slot plus the inserted element. -/
theorem siftUpF_coe : ∀ (fuel : Nat) (dat : List HuffmanNode)
    (pos : Nat) (e : HuffmanNode), pos < dat.length →
    ((siftUpF fuel dat 0 pos e).1 : Multiset HuffmanNode) =
      e ::ₘ ((dat.eraseIdx pos : List HuffmanNode) : Multiset HuffmanNode) := by
  intro fuel
  induction fuel with
  | zero => intro dat pos e h; simpa [siftUpF] using coe_set_eq h e
  | succ n ih =>
    intro dat pos e h
    unfold siftUpF
    split
    · split
      · simpa using coe_set_eq h e
      · rename_i hpos hle
        have hp : parentIdx pos < pos := parentIdx_lt hpos
        have hplen : parentIdx pos < dat.length := lt_trans hp h
        have hrec := ih (dat.set pos (hget dat (parentIdx pos))) (parentIdx pos) e
          (by simpa using hplen)
        rw [hrec, eraseIdx_set_cancel hplen (Nat.ne_of_lt hp) h]
    · simpa using coe_set_eq h e

/-- Pushing adds the element to the heap's contents. -/
theorem heapPush_coe (dat : List HuffmanNode) (x : HuffmanNode) :
    ((heapPush dat x : List HuffmanNode) : Multiset HuffmanNode) =
      x ::ₘ (dat : Multiset HuffmanNode) := by
  unfold heapPush
  rw [siftUpF_coe dat.length (dat ++ [x]) dat.length x (by simp),
    eraseIdx_append_singleton]

/-- Basic shape of the sift-down descent: the final hole index is in
bounds, filling it restores the original contents minus the original hole
slot, and no new elements appear. -/
theorem siftDownF_basic : ∀ (fuel : Nat) (dat : List HuffmanNode) (pos : Nat),
    pos < dat.length →
    (siftDownF fuel dat pos).2 < dat.length ∧
    (∀ e, (((siftDownF fuel dat pos).1.set (siftDownF fuel dat pos).2 e :
        List HuffmanNode) : Multiset HuffmanNode) =
      e ::ₘ ((dat.eraseIdx pos : List HuffmanNode) : Multiset HuffmanNode)) ∧
    (∀ a ∈ (siftDownF fuel dat pos).1, a ∈ dat) := by
  intro fuel
  induction fuel with
  | zero =>
    intro dat pos h
    exact ⟨h, fun e => coe_set_eq h e, fun a ha => ha⟩
  | succ n ih =>
    intro dat pos h
    by_cases h2 : 2 * pos + 1 + 1 < dat.length
    · by_cases hcomp : nodeLE (hget dat (2 * pos + 1)) (hget dat (2 * pos + 1 + 1)) = true
      · have heq : siftDownF (n + 1) dat pos =
            siftDownF n (dat.set pos (hget dat (2 * pos + 1 + 1))) (2 * pos + 1 + 1) := by
          conv_lhs => rw [siftDownF]
          rw [if_pos h2, if_pos hcomp]
        rw [heq]
        have hclen : 2 * pos + 1 + 1 < (dat.set pos (hget dat (2 * pos + 1 + 1))).length := by
          simpa using h2
        obtain ⟨hb1, hb2, hb3⟩ := ih _ _ hclen
        refine ⟨by simpa using hb1, ?_, ?_⟩
        · intro e
          rw [hb2 e, eraseIdx_set_cancel h2 (by omega) h]
        · intro a ha
          rcases mem_of_mem_set (hb3 a ha) with ha' | ha'
          · exact ha'
          · exact ha' ▸ hget_mem h2
      · have heq : siftDownF (n + 1) dat pos =
            siftDownF n (dat.set pos (hget dat (2 * pos + 1))) (2 * pos + 1) := by
          conv_lhs => rw [siftDownF]
          rw [if_pos h2, if_neg hcomp]
        rw [heq]
        have hc1 : 2 * pos + 1 < dat.length := by omega
        have hclen : 2 * pos + 1 < (dat.set pos (hget dat (2 * pos + 1))).length := by
          simpa using hc1
        obtain ⟨hb1, hb2, hb3⟩ := ih _ _ hclen
        refine ⟨by simpa using hb1, ?_, ?_⟩
        · intro e
          rw [hb2 e, eraseIdx_set_cancel hc1 (by omega) h]
        · intro a ha
          rcases mem_of_mem_set (hb3 a ha) with ha' | ha'
          · exact ha'
          · exact ha' ▸ hget_mem hc1
    · by_cases h1 : 2 * pos + 1 + 1 = dat.length
      · have heq : siftDownF (n + 1) dat pos =
            (dat.set pos (hget dat (2 * pos + 1)), 2 * pos + 1) := by
          conv_lhs => rw [siftDownF]
          rw [if_neg h2, if_pos h1]
        rw [heq]
        have hc1 : 2 * pos + 1 < dat.length := by omega
        refine ⟨hc1, ?_, ?_⟩
        · intro e
          have hc1' : 2 * pos + 1 < (dat.set pos (hget dat (2 * pos + 1))).length := by
            simpa using hc1
          rw [coe_set_eq hc1' e, eraseIdx_set_cancel hc1 (by omega) h]
        · intro a ha
          rcases mem_of_mem_set ha with ha' | ha'
          · exact ha'
          · exact ha' ▸ hget_mem hc1
      · have heq : siftDownF (n + 1) dat pos = (dat, pos) := by
          unfold siftDownF; rw [if_neg h2, if_neg h1]
        rw [heq]
        exact ⟨h, fun e => coe_set_eq h e, fun a ha => ha⟩

/-- Heap shape through the sift-down descent: if all edges not touching
the hole are ordered and the hole's children are bounded by the hole's
parent, then after the descent all edges not touching the final hole are
ordered and the final hole has no children. -/
theorem siftDownF_heap : ∀ (fuel : Nat) (dat : List HuffmanNode) (pos : Nat),
    pos < dat.length → dat.length - pos ≤ fuel + 1 →
    (∀ i, 0 < i → i < dat.length → i ≠ pos → parentIdx i ≠ pos →
      nodeLE (hget dat i) (hget dat (parentIdx i)) = true) →
    (0 < pos → ∀ i, 0 < i → i < dat.length → parentIdx i = pos →
      nodeLE (hget dat i) (hget dat (parentIdx pos)) = true) →
    (∀ i, 0 < i → i < dat.length → i ≠ (siftDownF fuel dat pos).2 →
      parentIdx i ≠ (siftDownF fuel dat pos).2 →
      nodeLE (hget (siftDownF fuel dat pos).1 i)
        (hget (siftDownF fuel dat pos).1 (parentIdx i)) = true) ∧
    (∀ i, 0 < i → i < dat.length → parentIdx i ≠ (siftDownF fuel dat pos).2) := by
  intro fuel
  induction fuel with
  | zero =>
    intro dat pos hpos hfuel ha hb
    rw [show siftDownF 0 dat pos = (dat, pos) from rfl]
    constructor
    · intro i h0 hlen hi hpi
      exact ha i h0 hlen hi hpi
    · intro i h0 hlen hpi
      have := le_of_parentIdx_eq h0 hpi
      omega
  | succ n ih =>
    intro dat pos hpos hfuel ha hb
    have hparL : parentIdx (2 * pos + 1) = pos := by unfold parentIdx; omega
    have hparR : parentIdx (2 * pos + 1 + 1) = pos := by unfold parentIdx; omega
    by_cases h2 : 2 * pos + 1 + 1 < dat.length
    · have hc1 : 2 * pos + 1 < dat.length := by omega
      by_cases hcomp : nodeLE (hget dat (2 * pos + 1)) (hget dat (2 * pos + 1 + 1)) = true
      · -- the right child is the greater one and the hole moves there
        have heq : siftDownF (n + 1) dat pos =
            siftDownF n (dat.set pos (hget dat (2 * pos + 1 + 1))) (2 * pos + 1 + 1) := by
          conv_lhs => rw [siftDownF]
          rw [if_pos h2, if_pos hcomp]
        rw [heq]
        have hlen' : (dat.set pos (hget dat (2 * pos + 1 + 1))).length = dat.length := by simp
        have hres := ih (dat.set pos (hget dat (2 * pos + 1 + 1))) (2 * pos + 1 + 1)
          (by omega) (by omega) ?_ ?_
        · rw [hlen'] at hres
          exact hres
        · -- edges not touching the new hole
          intro i h0 hlen hi hpi
          rw [hlen'] at hlen
          by_cases hipos : i = pos
          · subst hipos
            have h0pos : 0 < i := h0
            have hpp : parentIdx i < i := parentIdx_lt h0pos
            rw [hget_set_self hpos, hget_set_ne (by omega) _]
            exact hb h0pos (2 * i + 1 + 1) (by omega) (by omega) hparR
          · by_cases hppos : parentIdx i = pos
            · have hlo := le_of_parentIdx_eq h0 hppos
              have hhi := lt_of_parentIdx_eq h0 hppos
              have hi1 : i = 2 * pos + 1 := by omega
              subst hi1
              rw [hget_set_ne (by omega) _, hppos, hget_set_self hpos]
              exact hcomp
            · rw [hget_set_ne hipos _, hget_set_ne hppos _]
              exact ha i h0 hlen hipos hppos
        · -- children of the new hole are bounded by its parent, the old hole
          intro hcpos i h0 hlen hpi
          rw [hlen'] at hlen
          rw [hparR]
          have hlo := le_of_parentIdx_eq h0 hpi
          have hinepos : i ≠ pos := by omega
          rw [hget_set_ne hinepos _, hget_set_self hpos]
          have hedge := ha i h0 hlen hinepos (by omega)
          rw [hpi] at hedge
          exact hedge
      · -- the left child is the greater one and the hole moves there
        have heq : siftDownF (n + 1) dat pos =
            siftDownF n (dat.set pos (hget dat (2 * pos + 1))) (2 * pos + 1) := by
          conv_lhs => rw [siftDownF]
          rw [if_pos h2, if_neg hcomp]
        rw [heq]
        have hlen' : (dat.set pos (hget dat (2 * pos + 1))).length = dat.length := by simp
        have hres := ih (dat.set pos (hget dat (2 * pos + 1))) (2 * pos + 1)
          (by omega) (by omega) ?_ ?_
        · rw [hlen'] at hres
          exact hres
        · intro i h0 hlen hi hpi
          rw [hlen'] at hlen
          by_cases hipos : i = pos
          · subst hipos
            have h0pos : 0 < i := h0
            have hpp : parentIdx i < i := parentIdx_lt h0pos
            rw [hget_set_self hpos, hget_set_ne (by omega) _]
            exact hb h0pos (2 * i + 1) (by omega) (by omega) hparL
          · by_cases hppos : parentIdx i = pos
            · have hlo := le_of_parentIdx_eq h0 hppos
              have hhi := lt_of_parentIdx_eq h0 hppos
              have hi1 : i = 2 * pos + 1 + 1 := by omega
              subst hi1
              rw [hget_set_ne (by omega) _, hppos, hget_set_self hpos]
              exact nodeLE_of_not_nodeLE (Bool.not_eq_true _ ▸ hcomp)
            · rw [hget_set_ne hipos _, hget_set_ne hppos _]
              exact ha i h0 hlen hipos hppos
        · intro hcpos i h0 hlen hpi
          rw [hlen'] at hlen
          rw [hparL]
          have hlo := le_of_parentIdx_eq h0 hpi
          have hinepos : i ≠ pos := by omega
          rw [hget_set_ne hinepos _, hget_set_self hpos]
          have hedge := ha i h0 hlen hinepos (by omega)
          rw [hpi] at hedge
          exact hedge
    · by_cases h1 : 2 * pos + 1 + 1 = dat.length
      · -- exactly one child at the very end of the array
        have heq : siftDownF (n + 1) dat pos =
            (dat.set pos (hget dat (2 * pos + 1)), 2 * pos + 1) := by
          conv_lhs => rw [siftDownF]
          rw [if_neg h2, if_pos h1]
        rw [heq]
        have hc1 : 2 * pos + 1 < dat.length := by omega
        constructor
        · intro i h0 hlen hi hpi
          by_cases hipos : i = pos
          · subst hipos
            have h0pos : 0 < i := h0
            have hpp : parentIdx i < i := parentIdx_lt h0pos
            rw [hget_set_self hpos, hget_set_ne (by omega) _]
            exact hb h0pos (2 * i + 1) (by omega) (by omega) hparL
          · by_cases hppos : parentIdx i = pos
            · have hlo := le_of_parentIdx_eq h0 hppos
              have hhi := lt_of_parentIdx_eq h0 hppos
              omega
            · rw [hget_set_ne hipos _, hget_set_ne hppos _]
              exact ha i h0 hlen hipos hppos
        · intro i h0 hlen hpi
          have := le_of_parentIdx_eq h0 hpi
          omega
      · -- no children: the hole stays put
        have heq : siftDownF (n + 1) dat pos = (dat, pos) := by
          conv_lhs => rw [siftDownF]
          rw [if_neg h2, if_neg h1]
        rw [heq]
        constructor
        · intro i h0 hlen hi hpi
          exact ha i h0 hlen hi hpi
        · intro i h0 hlen hpi
          have := le_of_parentIdx_eq h0 hpi
          omega

/-- Writing the sifted element into the hole yields a heap provided all
other edges are ordered, the hole's children are bounded by the element,
and the element is bounded by the hole's parent. -/
theorem set_hole_heapProp (dat : List HuffmanNode) (pos : Nat) (e : HuffmanNode)
    (hpos : pos < dat.length)
    (ha : ∀ i, 0 < i → i < dat.length → i ≠ pos → parentIdx i ≠ pos →
      nodeLE (hget dat i) (hget dat (parentIdx i)) = true)
    (hc : ∀ i, 0 < i → i < dat.length → parentIdx i = pos →
      nodeLE (hget dat i) e = true)
    (hexit : 0 < pos → nodeLE e (hget dat (parentIdx pos)) = true) :
    heapProp (dat.set pos e) := by
  intro i h0 hlen
  rw [List.length_set] at hlen
  by_cases hipos : i = pos
  · subst hipos
    have hpp : parentIdx i < i := parentIdx_lt h0
    rw [hget_set_self hpos, hget_set_ne (by omega) _]
    exact hexit h0
  · by_cases hppos : parentIdx i = pos
    · rw [hget_set_ne hipos _, hppos, hget_set_self hpos]
      exact hc i h0 hlen hppos
    · rw [hget_set_ne hipos _, hget_set_ne hppos _]
      exact ha i h0 hlen hipos hppos

/-- Sift-up restores the heap shape.  Transitivity of the order is assumed
on a set `S` containing every element involved. -/
theorem siftUpF_heapProp (S : List HuffmanNode) (htr : transOn S) :
    ∀ (fuel : Nat) (dat : List HuffmanNode) (pos : Nat) (e : HuffmanNode),
    pos ≤ fuel → pos < dat.length →
    (∀ a ∈ dat, a ∈ S) → e ∈ S →
    (∀ i, 0 < i → i < dat.length → i ≠ pos → parentIdx i ≠ pos →
      nodeLE (hget dat i) (hget dat (parentIdx i)) = true) →
    (∀ i, 0 < i → i < dat.length → parentIdx i = pos →
      nodeLE (hget dat i) e = true) →
    (∀ i, 0 < i → i < dat.length → parentIdx i = pos → 0 < pos →
      nodeLE (hget dat i) (hget dat (parentIdx pos)) = true) →
    heapProp (siftUpF fuel dat 0 pos e).1 := by
  intro fuel
  induction fuel with
  | zero =>
    intro dat pos e hfuel hpos hS heS ha hc hd
    rw [show siftUpF 0 dat 0 pos e = (dat.set pos e, pos) from rfl]
    exact set_hole_heapProp dat pos e hpos ha hc (fun hp => absurd hp (by omega))
  | succ n ih =>
    intro dat pos e hfuel hpos hS heS ha hc hd
    by_cases hpos0 : 0 < pos
    · by_cases hle : nodeLE e (hget dat (parentIdx pos)) = true
      · have heq : siftUpF (n + 1) dat 0 pos e = (dat.set pos e, pos) := by
          conv_lhs => rw [siftUpF]
          rw [if_pos hpos0, if_pos hle]
        rw [heq]
        exact set_hole_heapProp dat pos e hpos ha hc (fun _ => hle)
      · have heq : siftUpF (n + 1) dat 0 pos e =
            siftUpF n (dat.set pos (hget dat (parentIdx pos))) 0 (parentIdx pos) e := by
          conv_lhs => rw [siftUpF]
          rw [if_pos hpos0, if_neg hle]
        rw [heq]
        have hpp : parentIdx pos < pos := parentIdx_lt hpos0
        have hplen : parentIdx pos < dat.length := by omega
        have hgt : nodeLE e (hget dat (parentIdx pos)) = false := by
          revert hle; cases nodeLE e (hget dat (parentIdx pos)) <;> simp
        have hqe : nodeLE (hget dat (parentIdx pos)) e = true := nodeLE_of_not_nodeLE hgt
        have hqS : hget dat (parentIdx pos) ∈ S := hS _ (hget_mem hplen)
        apply ih (dat.set pos (hget dat (parentIdx pos))) (parentIdx pos) e
          (by omega) (by simpa using hplen)
        · intro a hamem
          rcases mem_of_mem_set hamem with h | h
          · exact hS a h
          · exact h ▸ hqS
        · exact heS
        · -- edges not touching the new hole
          intro i h0 hlen hip hpip
          rw [List.length_set] at hlen
          by_cases hipos : i = pos
          · exact absurd (hipos ▸ rfl) hpip
          · by_cases hppos : parentIdx i = pos
            · rw [hget_set_ne hipos _, hppos, hget_set_self hpos]
              exact hd i h0 hlen hppos hpos0
            · rw [hget_set_ne hipos _, hget_set_ne hppos _]
              exact ha i h0 hlen hipos hppos
        · -- children of the new hole are bounded by the sifted element
          intro i h0 hlen hpi
          rw [List.length_set] at hlen
          by_cases hipos : i = pos
          · subst hipos
            rw [hget_set_self hpos]
            exact hqe
          · rw [hget_set_ne hipos _]
            have hedge := ha i h0 hlen hipos (by omega)
            rw [hpi] at hedge
            exact htr _ (hS _ (hget_mem hlen)) _ hqS _ heS hedge hqe
        · -- children of the new hole are bounded by its parent
          intro i h0 hlen hpi hp0
          rw [List.length_set] at hlen
          have hg2 : parentIdx (parentIdx pos) < parentIdx pos := parentIdx_lt hp0
          have hgne : parentIdx (parentIdx pos) ≠ pos := by omega
          have hedgep := ha (parentIdx pos) hp0 hplen (by omega) hgne
          by_cases hipos : i = pos
          · subst hipos
            rw [hget_set_self hpos, hget_set_ne (by omega) _]
            exact hedgep
          · rw [hget_set_ne hipos _, hget_set_ne hgne _]
            have hedge := ha i h0 hlen hipos (by omega)
            rw [hpi] at hedge
            exact htr _ (hS _ (hget_mem hlen)) _ hqS _
              (hS _ (hget_mem (by omega : parentIdx (parentIdx pos) < dat.length)))
              hedge hedgep
    · have heq : siftUpF (n + 1) dat 0 pos e = (dat.set pos e, pos) := by
        conv_lhs => rw [siftUpF]
        rw [if_neg hpos0]
      rw [heq]
      exact set_hole_heapProp dat pos e hpos ha hc (fun hp => absurd hp hpos0)

/-- Pushing onto a heap preserves the heap shape. -/
theorem heapPush_heapProp (S : List HuffmanNode) (htr : transOn S)
    (dat : List HuffmanNode) (x : HuffmanNode)
    (hheap : heapProp dat) (hS : ∀ a ∈ dat, a ∈ S) (hx : x ∈ S) :
    heapProp (heapPush dat x) := by
  unfold heapPush
  apply siftUpF_heapProp S htr dat.length (dat ++ [x]) dat.length x le_rfl (by simp)
  · intro a ha
    rcases List.mem_append.1 ha with h | h
    · exact hS a h
    · simp at h
      exact h ▸ hx
  · exact hx
  · intro i h0 hlen hip hpip
    rw [List.length_append] at hlen
    have hilt : i < dat.length := by simp at hlen; omega
    have hplt : parentIdx i < dat.length := by have := parentIdx_lt h0; omega
    rw [hget_append_left hilt, hget_append_left hplt]
    exact hheap i h0 hilt
  · intro i h0 hlen hpi
    have := le_of_parentIdx_eq h0 hpi
    rw [List.length_append] at hlen
    simp at hlen
    omega
  · intro i h0 hlen hpi hp0
    have := le_of_parentIdx_eq h0 hpi
    rw [List.length_append] at hlen
    simp at hlen
    omega

/-- In a heap, every element compares `<=` against the root, so the root
is the element `BinaryHeap::pop` extracts first. -/
theorem heap_root_max (S : List HuffmanNode) (htr : transOn S)
    (h : List HuffmanNode) (hheap : heapProp h) (hS : ∀ a ∈ h, a ∈ S) :
    ∀ i, i < h.length → nodeLE (hget h i) (hget h 0) = true := by
  intro i
  induction i using Nat.strong_induction_on with
  | _ i ih =>
    intro hlen
    rcases Nat.eq_zero_or_pos i with h0 | h0
    · subst h0
      exact nodeLE_refl _
    · have hedge := hheap i h0 hlen
      have hpp : parentIdx i < i := parentIdx_lt h0
      have hrec := ih (parentIdx i) hpp (by omega)
      have h0len : 0 < h.length := by omega
      exact htr _ (hS _ (hget_mem hlen)) _ (hS _ (hget_mem (by omega))) _
        (hS _ (hget_mem h0len)) hedge hrec

/-- Full specification of `BinaryHeap::pop` on a non-empty heap: it
returns the root slot, and the remaining heap holds the other elements
and is again a heap. -/
theorem heapPop_spec (S : List HuffmanNode) (htr : transOn S)
    (h : List HuffmanNode) (hne : h ≠ [])
    (hheap : heapProp h) (hS : ∀ a ∈ h, a ∈ S) :
    ∃ h', heapPop h = some (hget h 0, h') ∧
      (h : Multiset HuffmanNode) = hget h 0 ::ₘ (h' : Multiset HuffmanNode) ∧
      heapProp h' ∧ h'.length = h.length - 1 ∧ (∀ a ∈ h', a ∈ h) := by
  by_cases hrest : h.dropLast.isEmpty
  · -- singleton heap: pop returns the only element directly
    obtain ⟨x, rfl⟩ : ∃ x, h = [x] := by
      rcases h with _ | ⟨x, t⟩
      · exact absurd rfl hne
      · rcases t with _ | ⟨y, t'⟩
        · exact ⟨x, rfl⟩
        · simp [List.dropLast] at hrest
    exact ⟨[], rfl, rfl, fun i h0 hl => absurd hl (by simp), rfl, by simp⟩
  · -- at least two elements: swap, sift down to the bottom, sift up
    have hlen2 : 2 ≤ h.length := by
      rcases h with _ | ⟨x, t⟩
      · exact absurd rfl hne
      · rcases t with _ | ⟨y, t'⟩
        · simp [List.dropLast] at hrest
        · simp
    have hlast : h.getLast? = some (h.getLast hne) := List.getLast?_eq_getLast h hne
    have hrlen : h.dropLast.length = h.length - 1 := List.length_dropLast h
    have hrpos : 0 < h.dropLast.length := by omega
    have hrfalse : h.dropLast.isEmpty = false := by
      cases hdl : h.dropLast.isEmpty
      · rfl
      · exact absurd hdl hrest
    obtain ⟨hb1, hb2, hb3⟩ := siftDownF_basic h.dropLast.length h.dropLast 0 hrpos
    have hha : ∀ i, 0 < i → i < h.dropLast.length → i ≠ 0 → parentIdx i ≠ 0 →
        nodeLE (hget h.dropLast i) (hget h.dropLast (parentIdx i)) = true := by
      intro i h0 hlen _ _
      have hi1 : i + 1 < h.length := by omega
      have hppi : parentIdx i < i := parentIdx_lt h0
      have hpi1 : parentIdx i + 1 < h.length := by omega
      rw [hget_dropLast hi1, hget_dropLast hpi1]
      exact hheap i h0 (by omega)
    obtain ⟨hh1, hh2⟩ := siftDownF_heap h.dropLast.length h.dropLast 0 hrpos (by omega) hha
      (fun hc => absurd hc (by omega))
    have hsdlen : (siftDownF h.dropLast.length h.dropLast 0).1.length = h.dropLast.length :=
      siftDownF_length _ _ _
    have hb1' : (siftDownF h.dropLast.length h.dropLast 0).2 <
        (siftDownF h.dropLast.length h.dropLast 0).1.length := by
      rw [hsdlen]
      exact hb1
    have hupcoe := siftUpF_coe (siftDownF h.dropLast.length h.dropLast 0).2
      (siftDownF h.dropLast.length h.dropLast 0).1
      (siftDownF h.dropLast.length h.dropLast 0).2 (h.getLast hne) hb1'
    have hfill := hb2 (h.getLast hne)
    have hset := coe_set_eq hb1' (h.getLast hne)
    have hEE := (Multiset.cons_inj_right _).1 (hset.symm.trans hfill)
    rw [hEE] at hupcoe
    refine ⟨(siftUpF (siftDownF h.dropLast.length h.dropLast 0).2
        (siftDownF h.dropLast.length h.dropLast 0).1 0
        (siftDownF h.dropLast.length h.dropLast 0).2 (h.getLast hne)).1,
      ?_, ?_, ?_, ?_, ?_⟩
    · simp only [heapPop, hlast, hrfalse, Bool.false_eq_true, if_false]
      rw [hget_dropLast (show 0 + 1 < h.length by omega)]
    · have hsplit : (h : Multiset HuffmanNode) =
          (h.dropLast : Multiset HuffmanNode) + {h.getLast hne} := by
        conv_lhs => rw [← List.dropLast_concat_getLast hne]
        rw [← Multiset.coe_add, Multiset.coe_singleton]
      have hr0 := coe_eq_hget_cons_eraseIdx hrpos
      rw [hget_dropLast (show 0 + 1 < h.length by omega)] at hr0
      rw [hupcoe, hsplit, hr0, Multiset.cons_add]
      rw [add_comm ((h.dropLast.eraseIdx 0 : List HuffmanNode) : Multiset HuffmanNode)
        ({h.getLast hne} : Multiset HuffmanNode)]
      rw [Multiset.singleton_add]
    · apply siftUpF_heapProp S htr _ _ _ _ le_rfl hb1'
      · intro a ha
        exact hS a ((List.dropLast_sublist h).subset (hb3 a ha))
      · exact hS _ (List.getLast_mem hne)
      · intro i h0 hlen hip hpip
        rw [hsdlen] at hlen
        exact hh1 i h0 hlen hip hpip
      · intro i h0 hlen hpi
        rw [hsdlen] at hlen
        exact absurd hpi (hh2 i h0 hlen)
      · intro i h0 hlen hpi _
        rw [hsdlen] at hlen
        exact absurd hpi (hh2 i h0 hlen)
    · rw [siftUpF_length, hsdlen, hrlen]
    · intro a ha
      have hmem : a ∈ ((siftUpF (siftDownF h.dropLast.length h.dropLast 0).2
          (siftDownF h.dropLast.length h.dropLast 0).1 0
          (siftDownF h.dropLast.length h.dropLast 0).2 (h.getLast hne)).1 :
          Multiset HuffmanNode) := Multiset.mem_coe.2 ha
      rw [hupcoe] at hmem
      rcases Multiset.mem_cons.1 hmem with h1 | h1
      · exact h1 ▸ List.getLast_mem hne
      · exact (List.dropLast_sublist h).subset
          (List.mem_of_mem_eraseIdx (Multiset.mem_coe.1 h1))

theorem hget_eq_get : ∀ (l : List HuffmanNode) (i : Nat) (hi : i < l.length),
    hget l i = l.get ⟨i, hi⟩
  | _ :: _, 0, _ => rfl
  | _ :: xs, i + 1, hi => hget_eq_get xs i (Nat.lt_of_succ_lt_succ hi)

theorem coe_length_eq {h M : List HuffmanNode}
    (hmult : (h : Multiset HuffmanNode) = (M : Multiset HuffmanNode)) :
    h.length = M.length := by
  have hcard := congrArg Multiset.card hmult
  simpa [Multiset.coe_card] using hcard

theorem coe_mem_iff {h M : List HuffmanNode}
    (hmult : (h : Multiset HuffmanNode) = (M : Multiset HuffmanNode)) :
    ∀ a, a ∈ h ↔ a ∈ M := by
  intro a
  rw [← Multiset.mem_coe, hmult, Multiset.mem_coe]

/-- Popping a heap holding the multiset of a known list `M` whose unique
dominating element is `m` yields `m` and a heap holding `M'`, where `M`
splits as `m` plus `M'`. -/
theorem pop_step (S : List HuffmanNode) (htr : transOn S)
    (h M M' : List HuffmanNode) (m : HuffmanNode)
    (hheap : heapProp h)
    (hmult : (h : Multiset HuffmanNode) = (M : Multiset HuffmanNode))
    (hMS : ∀ a ∈ M, a ∈ S)
    (hmax : ∀ x ∈ M, (∀ y ∈ M, nodeLE y x = true) → x = m)
    (hsplit : (M : Multiset HuffmanNode) = m ::ₘ (M' : Multiset HuffmanNode))
    (hMne : M ≠ []) :
    ∃ h', heapPop h = some (m, h') ∧ heapProp h' ∧
      ((h' : List HuffmanNode) : Multiset HuffmanNode) = (M' : Multiset HuffmanNode) ∧
      h'.length = M.length - 1 := by
  have hmem := coe_mem_iff hmult
  have hlenM := coe_length_eq hmult
  have hne : h ≠ [] := by
    intro hcon
    rw [hcon] at hlenM
    rcases M with _ | ⟨y, t⟩
    · exact hMne rfl
    · simp at hlenM
  have hS : ∀ a ∈ h, a ∈ S := fun a ha => hMS a ((hmem a).1 ha)
  obtain ⟨h', hpop, hcoe, hheap', hlen', hsub⟩ := heapPop_spec S htr h hne hheap hS
  have hmax0 := heap_root_max S htr h hheap hS
  have h0len : 0 < h.length := by
    rcases h with _ | _
    · exact absurd rfl hne
    · simp
  have hrootm : hget h 0 = m := by
    apply hmax (hget h 0) ((hmem _).1 (hget_mem h0len))
    intro y hy
    obtain ⟨⟨i, hi⟩, hg⟩ := List.get_of_mem ((hmem y).2 hy)
    have hmax0i := hmax0 i hi
    rw [hget_eq_get h i hi, hg] at hmax0i
    exact hmax0i
  rw [hrootm] at hpop hcoe
  refine ⟨h', hpop, hheap', ?_, by omega⟩
  rw [hmult, hsplit] at hcoe
  exact ((Multiset.cons_inj_right _).1 hcoe).symm

/-- Pushing onto a heap holding the multiset of `M` yields a heap holding
`x` on top of `M`. -/
theorem push_step (S : List HuffmanNode) (htr : transOn S)
    (h M : List HuffmanNode) (x : HuffmanNode)
    (hheap : heapProp h)
    (hmult : (h : Multiset HuffmanNode) = (M : Multiset HuffmanNode))
    (hMS : ∀ a ∈ M, a ∈ S) (hx : x ∈ S) :
    heapProp (heapPush h x) ∧
      ((heapPush h x : List HuffmanNode) : Multiset HuffmanNode) =
        x ::ₘ (M : Multiset HuffmanNode) := by
  have hmem := coe_mem_iff hmult
  constructor
  · exact heapPush_heapProp S htr h x hheap (fun a ha => hMS a ((hmem a).1 ha)) hx
  · rw [heapPush_coe, hmult]

/-- One unfolding of the build loop when two pops are known. -/
theorem buildLoopF_step (fuel : Nat) (h h1 h2 : List HuffmanNode)
    (left right : HuffmanNode) (hlen : h.length > 1)
    (hp1 : heapPop h = some (left, h1)) (hp2 : heapPop h1 = some (right, h2)) :
    buildLoopF (fuel + 1) h = buildLoopF fuel (heapPush h2 (.Internal left right)) := by
  conv_lhs => rw [buildLoopF]
  rw [if_pos hlen, hp1]
  simp only [hp2]

/-- One iteration of `build_huffman_tree`'s loop, driven by the concrete
multiset of heap contents: the two unique dominating elements `m1` and
`m2` (the nodes of least extraction order, i.e. least frequency) are
popped, `m1` becoming the left child, and their internal node is pushed
back. -/
theorem loop_iter (S : List HuffmanNode) (htr : transOn S) (fuel : Nat)
    (h M M1 M2 : List HuffmanNode) (m1 m2 : HuffmanNode)
    (hheap : heapProp h)
    (hmult : (h : Multiset HuffmanNode) = (M : Multiset HuffmanNode))
    (hMS : ∀ a ∈ M, a ∈ S)
    (hlen : 1 < M.length)
    (hmax1 : ∀ x ∈ M, (∀ y ∈ M, nodeLE y x = true) → x = m1)
    (hsplit1 : (M : Multiset HuffmanNode) = m1 ::ₘ (M1 : Multiset HuffmanNode))
    (hmax2 : ∀ x ∈ M1, (∀ y ∈ M1, nodeLE y x = true) → x = m2)
    (hsplit2 : (M1 : Multiset HuffmanNode) = m2 ::ₘ (M2 : Multiset HuffmanNode))
    (hI : HuffmanNode.Internal m1 m2 ∈ S) :
    ∃ h3, buildLoopF (fuel + 1) h = buildLoopF fuel h3 ∧ heapProp h3 ∧
      (h3 : Multiset HuffmanNode) =
        ((HuffmanNode.Internal m1 m2 :: M2 : List HuffmanNode) : Multiset HuffmanNode) := by
  have hM1S : ∀ a ∈ M1, a ∈ S := by
    intro a ha
    apply hMS
    rw [← Multiset.mem_coe, hsplit1]
    exact Multiset.mem_cons_of_mem (Multiset.mem_coe.2 ha)
  have hM2S : ∀ a ∈ M2, a ∈ S := by
    intro a ha
    apply hM1S
    rw [← Multiset.mem_coe, hsplit2]
    exact Multiset.mem_cons_of_mem (Multiset.mem_coe.2 ha)
  have hM1len : M1.length + 1 = M.length := by
    have hcard := congrArg Multiset.card hsplit1
    simpa [Multiset.coe_card] using hcard.symm
  have hMne : M ≠ [] := by
    intro hcon
    rw [hcon] at hlen
    simp at hlen
  have hM1ne : M1 ≠ [] := by
    intro hcon
    rw [hcon] at hM1len
    simp at hM1len
    omega
  obtain ⟨h1, hpop1, hheap1, hcoe1, hlen1⟩ :=
    pop_step S htr h M M1 m1 hheap hmult hMS hmax1 hsplit1 hMne
  obtain ⟨h2, hpop2, hheap2, hcoe2, hlen2⟩ :=
    pop_step S htr h1 M1 M2 m2 hheap1 hcoe1 hM1S hmax2 hsplit2 hM1ne
  obtain ⟨hheap3, hcoe3⟩ :=
    push_step S htr h2 M2 (.Internal m1 m2) hheap2 hcoe2 hM2S hI
  refine ⟨heapPush h2 (.Internal m1 m2), ?_, hheap3, ?_⟩
  · exact buildLoopF_step fuel h h1 h2 m1 m2
      (by rw [coe_length_eq hmult]; omega) hpop1 hpop2
  · rw [hcoe3, ← Multiset.cons_coe]

/-- The builder's run on any heap holding exactly the scenario-3 leaves:
regardless of the heap's internal layout, the seven loop iterations pop
the same nodes in the same order and produce the scenario tree. -/
theorem scenario_fromHeap (h : List HuffmanNode) (hheap : heapProp h)
    (hmult : (h : Multiset HuffmanNode) = (scenarioLeaves : Multiset HuffmanNode)) :
    buildFromHeap h = some scenarioTree := by
  have htr : transOn scenarioNodes := by unfold transOn; decide
  have hlen8 : h.length = 8 := by
    rw [coe_length_eq hmult]
    rfl
  unfold buildFromHeap
  rw [hlen8]
  obtain ⟨h3, heq1, hheap1, hmult1⟩ := loop_iter scenarioNodes htr 7 h scenarioLeaves
    [nC, nD, nE, nK, nL, nM, nU] [nC, nD, nE, nL, nM, nU] nZ nK
    hheap hmult (by decide) (by decide) (by decide) (by decide) (by decide)
    (by decide) (by decide)
  rw [heq1]
  obtain ⟨h4, heq2, hheap2, hmult2⟩ := loop_iter scenarioNodes htr 6 h3
    [i1, nC, nD, nE, nL, nM, nU] [nC, nD, nE, nL, nM, nU] [nC, nD, nE, nL, nU] i1 nM
    hheap1 hmult1 (by decide) (by decide) (by decide) (by decide) (by decide)
    (by decide) (by decide)
  rw [heq2]
  obtain ⟨h5, heq3, hheap3, hmult3⟩ := loop_iter scenarioNodes htr 5 h4
    [i2, nC, nD, nE, nL, nU] [i2, nD, nE, nL, nU] [nD, nE, nL, nU] nC i2
    hheap2 hmult2 (by decide) (by decide) (by decide) (by decide) (by decide)
    (by decide) (by decide)
  rw [heq3]
  obtain ⟨h6, heq4, hheap4, hmult4⟩ := loop_iter scenarioNodes htr 4 h5
    [i3, nD, nE, nL, nU] [i3, nD, nE, nL] [i3, nE, nL] nU nD
    hheap3 hmult3 (by decide) (by decide) (by decide) (by decide) (by decide)
    (by decide) (by decide)
  rw [heq4]
  obtain ⟨h7, heq5, hheap5, hmult5⟩ := loop_iter scenarioNodes htr 3 h6
    [i4, i3, nE, nL] [i4, i3, nE] [i4, nE] nL i3
    hheap4 hmult4 (by decide) (by decide) (by decide) (by decide) (by decide)
    (by decide) (by decide)
  rw [heq5]
  obtain ⟨h8, heq6, hheap6, hmult6⟩ := loop_iter scenarioNodes htr 2 h7
    [i5, i4, nE] [i5, nE] [nE] i4 i5
    hheap5 hmult5 (by decide) (by decide) (by decide) (by decide) (by decide)
    (by decide) (by decide)
  rw [heq6]
  obtain ⟨h9, heq7, hheap7, hmult7⟩ := loop_iter scenarioNodes htr 1 h8
    [i6, nE] [i6] [] nE i6
    hheap6 hmult6 (by decide) (by decide) (by decide) (by decide) (by decide)
    (by decide) (by decide)
  rw [heq7]
  have h9single : h9 = [i7] := List.perm_singleton.1 (Multiset.coe_eq_coe.1 hmult7)
  rw [h9single]
  rfl

/-- Unconditional content of a successful pop: the popped element plus the
remaining heap is the original heap, and the length shrinks by one.  This
holds for any backing array, heap-shaped or not. -/
theorem heapPop_coe (h : List HuffmanNode) (x : HuffmanNode) (h' : List HuffmanNode)
    (hp : heapPop h = some (x, h')) :
    (h : Multiset HuffmanNode) = x ::ₘ (h' : Multiset HuffmanNode) ∧
      h'.length = h.length - 1 := by
  have hne : h ≠ [] := by
    intro hcon
    rw [hcon] at hp
    simp [heapPop] at hp
  have hlast : h.getLast? = some (h.getLast hne) := List.getLast?_eq_getLast h hne
  by_cases hrest : h.dropLast.isEmpty
  · obtain ⟨y, rfl⟩ : ∃ y, h = [y] := by
      rcases h with _ | ⟨y, t⟩
      · exact absurd rfl hne
      · rcases t with _ | ⟨z, t'⟩
        · exact ⟨y, rfl⟩
        · simp [List.dropLast] at hrest
    have : some (y, ([] : List HuffmanNode)) = some (x, h') := hp
    have hxy : y = x := by injection this with h1; exact (congrArg Prod.fst h1)
    have hh' : ([] : List HuffmanNode) = h' := by injection this with h1; exact (congrArg Prod.snd h1)
    subst hxy
    rw [← hh']
    exact ⟨rfl, rfl⟩
  · have hlen2 : 2 ≤ h.length := by
      rcases h with _ | ⟨y, t⟩
      · exact absurd rfl hne
      · rcases t with _ | ⟨z, t'⟩
        · simp [List.dropLast] at hrest
        · simp
    have hrlen : h.dropLast.length = h.length - 1 := List.length_dropLast h
    have hrpos : 0 < h.dropLast.length := by omega
    have hrfalse : h.dropLast.isEmpty = false := by
      cases hdl : h.dropLast.isEmpty
      · rfl
      · exact absurd hdl hrest
    obtain ⟨hb1, hb2, hb3⟩ := siftDownF_basic h.dropLast.length h.dropLast 0 hrpos
    have hsdlen : (siftDownF h.dropLast.length h.dropLast 0).1.length = h.dropLast.length :=
      siftDownF_length _ _ _
    have hb1' : (siftDownF h.dropLast.length h.dropLast 0).2 <
        (siftDownF h.dropLast.length h.dropLast 0).1.length := by
      rw [hsdlen]
      exact hb1
    have hupcoe := siftUpF_coe (siftDownF h.dropLast.length h.dropLast 0).2
      (siftDownF h.dropLast.length h.dropLast 0).1
      (siftDownF h.dropLast.length h.dropLast 0).2 (h.getLast hne) hb1'
    have hfill := hb2 (h.getLast hne)
    have hset := coe_set_eq hb1' (h.getLast hne)
    have hEE := (Multiset.cons_inj_right _).1 (hset.symm.trans hfill)
    rw [hEE] at hupcoe
    have hpeq : heapPop h = some (hget h 0,
        (siftUpF (siftDownF h.dropLast.length h.dropLast 0).2
          (siftDownF h.dropLast.length h.dropLast 0).1 0
          (siftDownF h.dropLast.length h.dropLast 0).2 (h.getLast hne)).1) := by
      simp only [heapPop, hlast, hrfalse, Bool.false_eq_true, if_false]
      rw [hget_dropLast (show 0 + 1 < h.length by omega)]
    rw [hpeq] at hp
    have hx : hget h 0 = x := by injection hp with h1; exact (congrArg Prod.fst h1)
    have hh' : (siftUpF (siftDownF h.dropLast.length h.dropLast 0).2
        (siftDownF h.dropLast.length h.dropLast 0).1 0
        (siftDownF h.dropLast.length h.dropLast 0).2 (h.getLast hne)).1 = h' := by
      injection hp with h1; exact (congrArg Prod.snd h1)
    subst hx
    rw [← hh']
    constructor
    · have hsplit : (h : Multiset HuffmanNode) =
          (h.dropLast : Multiset HuffmanNode) + {h.getLast hne} := by
        conv_lhs => rw [← List.dropLast_concat_getLast hne]
        rw [← Multiset.coe_add, Multiset.coe_singleton]
      have hr0 := coe_eq_hget_cons_eraseIdx hrpos
      rw [hget_dropLast (show 0 + 1 < h.length by omega)] at hr0
      rw [hupcoe, hsplit, hr0, Multiset.cons_add]
      rw [add_comm ((h.dropLast.eraseIdx 0 : List HuffmanNode) : Multiset HuffmanNode)
        ({h.getLast hne} : Multiset HuffmanNode)]
      rw [Multiset.singleton_add]
    · rw [siftUpF_length, hsdlen, hrlen]

/-- Popping a non-empty heap succeeds. -/
theorem heapPop_isSome (h : List HuffmanNode) (hne : h ≠ []) :
    ∃ x h', heapPop h = some (x, h') := by
  have hlast : h.getLast? = some (h.getLast hne) := List.getLast?_eq_getLast h hne
  by_cases hrest : h.dropLast.isEmpty
  · refine ⟨h.getLast hne, h.dropLast, ?_⟩
    simp only [heapPop, hlast, hrest, if_true]
  · have hrfalse : h.dropLast.isEmpty = false := by
      cases hdl : h.dropLast.isEmpty
      · rfl
      · exact absurd hdl hrest
    refine ⟨hget h.dropLast 0,
      (siftUpF (siftDownF h.dropLast.length h.dropLast 0).2
        (siftDownF h.dropLast.length h.dropLast 0).1 0
        (siftDownF h.dropLast.length h.dropLast 0).2 (h.getLast hne)).1, ?_⟩
    simp only [heapPop, hlast, hrfalse, Bool.false_eq_true, if_false]

/-- The initial heap of `build_huffman_tree` holds exactly one leaf per
entry of the frequency map, in some arrangement. -/
theorem initial_heap_coe (l : List (Char × Nat)) :
    ∀ h0 : List HuffmanNode,
    ((l.foldl (fun h p => heapPush h (.Leaf p.1 p.2)) h0 : List HuffmanNode) :
        Multiset HuffmanNode) =
      ((l.map fun p => HuffmanNode.Leaf p.1 p.2 : List HuffmanNode) :
        Multiset HuffmanNode) + (h0 : Multiset HuffmanNode) := by
  induction l with
  | nil => intro h0; simp
  | cons p t ih =>
    intro h0
    show ((t.foldl (fun h p => heapPush h (.Leaf p.1 p.2))
        (heapPush h0 (.Leaf p.1 p.2)) : List HuffmanNode) : Multiset HuffmanNode) = _
    rw [ih (heapPush h0 (.Leaf p.1 p.2)), heapPush_coe]
    show _ = ((HuffmanNode.Leaf p.1 p.2 ::
        (t.map fun p => HuffmanNode.Leaf p.1 p.2) : List HuffmanNode) :
        Multiset HuffmanNode) + (h0 : Multiset HuffmanNode)
    rw [← Multiset.cons_coe, Multiset.cons_add, Multiset.add_cons]

/-- Heaps with the same contents carry the same leaf entries. -/
theorem heapEntries_perm {h h' : List HuffmanNode}
    (hmult : (h : Multiset HuffmanNode) = (h' : Multiset HuffmanNode)) :
    heapEntries h = heapEntries h' := by
  unfold heapEntries
  exact List.Perm.sum_eq ((Multiset.coe_eq_coe.1 hmult).map _)

theorem heapEntries_cons (x : HuffmanNode) (t : List HuffmanNode) :
    heapEntries (x :: t) = (x.leafList : Multiset (Char × Nat)) + heapEntries t := by
  unfold heapEntries
  simp

/-- The loop of `build_huffman_tree` preserves the multiset of leaf
entries stored in the heap: popping two nodes and pushing the internal
node made of them moves leaves around but never adds or drops one. -/
theorem buildLoopF_entries : ∀ (fuel : Nat) (h : List HuffmanNode),
    heapEntries (buildLoopF fuel h) = heapEntries h := by
  intro fuel
  induction fuel with
  | zero => intro h; rfl
  | succ n ih =>
    intro h
    by_cases hlen : h.length > 1
    · cases hp1 : heapPop h with
      | none =>
        conv_lhs => rw [buildLoopF]
        rw [if_pos hlen, hp1]
      | some pr =>
        obtain ⟨left, h1⟩ := pr
        cases hp2 : heapPop h1 with
        | none =>
          obtain ⟨_, hlen1⟩ := heapPop_coe h left h1 hp1
          have hne1 : h1 ≠ [] := by
            intro hcon
            rw [hcon] at hlen1
            simp at hlen1
            omega
          obtain ⟨x', h'', hsome⟩ := heapPop_isSome h1 hne1
          rw [hsome] at hp2
          exact absurd hp2 (by simp)
        | some pr2 =>
          obtain ⟨right, h2⟩ := pr2
          rw [buildLoopF_step n h h1 h2 left right hlen hp1 hp2, ih]
          obtain ⟨hc1, _⟩ := heapPop_coe h left h1 hp1
          obtain ⟨hc2, _⟩ := heapPop_coe h1 right h2 hp2
          have hpush : ((heapPush h2 (.Internal left right) : List HuffmanNode) :
              Multiset HuffmanNode) =
              ((HuffmanNode.Internal left right :: h2 : List HuffmanNode) :
                Multiset HuffmanNode) := by
            rw [heapPush_coe, Multiset.cons_coe]
          rw [heapEntries_perm hpush, heapEntries_cons]
          rw [heapEntries_perm hc1, heapEntries_cons]
          rw [heapEntries_perm hc2, heapEntries_cons]
          have hleaf : (((HuffmanNode.Internal left right).leafList :
              List (Char × Nat)) : Multiset (Char × Nat)) =
              (left.leafList : Multiset (Char × Nat)) +
                (right.leafList : Multiset (Char × Nat)) := by
            show ((left.leafList ++ right.leafList : List (Char × Nat)) :
              Multiset (Char × Nat)) = _
            rw [← Multiset.coe_add]
          rw [hleaf, add_assoc]
    · conv_lhs => rw [buildLoopF]
      rw [if_neg hlen]

/-- The loop shrinks any non-empty heap down to exactly one node. -/
theorem buildLoopF_length_one : ∀ (fuel : Nat) (h : List HuffmanNode),
    h ≠ [] → h.length ≤ fuel + 1 → (buildLoopF fuel h).length = 1 := by
  intro fuel
  induction fuel with
  | zero =>
    intro h hne hlen
    have : 0 < h.length := List.length_pos.2 hne
    show h.length = 1
    omega
  | succ n ih =>
    intro h hne hlen
    by_cases hgt : h.length > 1
    · obtain ⟨left, h1, hp1⟩ := heapPop_isSome h hne
      obtain ⟨_, hlen1⟩ := heapPop_coe h left h1 hp1
      have hne1 : h1 ≠ [] := by
        intro hcon
        rw [hcon] at hlen1
        simp at hlen1
        omega
      obtain ⟨right, h2, hp2⟩ := heapPop_isSome h1 hne1
      obtain ⟨_, hlen2⟩ := heapPop_coe h1 right h2 hp2
      rw [buildLoopF_step n h h1 h2 left right hgt hp1 hp2]
      apply ih
      · intro hcon
        have := congrArg List.length (congrArg (fun l => l) hcon)
        rw [heapPush_length] at this
        simp at this
      · rw [heapPush_length]
        omega
    · conv_lhs => rw [buildLoopF]
      rw [if_neg hgt]
      have : 0 < h.length := List.length_pos.2 hne
      show h.length = 1
      omega

/-- The entries stored in the initial heap are exactly the frequency-map
entries. -/
theorem heapEntries_map_leaf (l : List (Char × Nat)) :
    heapEntries (l.map fun p => HuffmanNode.Leaf p.1 p.2) =
      ((l : List (Char × Nat)) : Multiset (Char × Nat)) := by
  induction l with
  | nil => rfl
  | cons p t ih =>
    show heapEntries (HuffmanNode.Leaf p.1 p.2 ::
      (t.map fun p => HuffmanNode.Leaf p.1 p.2)) = _
    rw [heapEntries_cons, ih]
    show ([(p.1, p.2)] : Multiset (Char × Nat)) + (t : Multiset (Char × Nat)) = _
    rw [← Multiset.cons_coe]
    rw [← Multiset.singleton_add]
    simp

/-- The builder fails (panics at the final unwrap, modelled as `none`)
exactly on the empty frequency map. -/
theorem buildHuffmanTree_eq_none_iff (l : List (Char × Nat)) :
    buildHuffmanTree l = none ↔ l = [] := by
  constructor
  · intro hnone
    by_contra hne
    have hcoe := initial_heap_coe l []
    rw [Multiset.coe_nil, add_zero] at hcoe
    have hlen : (l.foldl (fun h p => heapPush h (.Leaf p.1 p.2)) []).length = l.length := by
      have := coe_length_eq hcoe
      simpa using this
    have hhne : l.foldl (fun h p => heapPush h (.Leaf p.1 p.2)) [] ≠ [] := by
      intro hcon
      rw [hcon] at hlen
      exact hne (List.length_eq_zero.1 hlen.symm)
    have h1 := buildLoopF_length_one
      (l.foldl (fun h p => heapPush h (.Leaf p.1 p.2)) []).length
      (l.foldl (fun h p => heapPush h (.Leaf p.1 p.2)) []) hhne (by omega)
    have hlne : buildLoopF (l.foldl (fun h p => heapPush h (.Leaf p.1 p.2)) []).length
        (l.foldl (fun h p => heapPush h (.Leaf p.1 p.2)) []) ≠ [] := by
      intro hcon
      rw [hcon] at h1
      simp at h1
    obtain ⟨x, h', hsome⟩ := heapPop_isSome _ hlne
    unfold buildHuffmanTree buildFromHeap at hnone
    rw [hsome] at hnone
    simp at hnone
  · intro hl
    subst hl
    rfl

/-- The leaves of a tree the builder returns are exactly the entries of
the frequency map it was given. -/
theorem buildHuffmanTree_leafList (l : List (Char × Nat)) (root : HuffmanNode)
    (hb : buildHuffmanTree l = some root) :
    ((root.leafList : List (Char × Nat)) : Multiset (Char × Nat)) =
      ((l : List (Char × Nat)) : Multiset (Char × Nat)) := by
  have hcoe := initial_heap_coe l []
  rw [Multiset.coe_nil, add_zero] at hcoe
  have hlen : (l.foldl (fun h p => heapPush h (.Leaf p.1 p.2)) []).length = l.length := by
    have := coe_length_eq hcoe
    simpa using this
  have hne : l ≠ [] := by
    intro hcon
    rw [(buildHuffmanTree_eq_none_iff l).2 hcon] at hb
    exact absurd hb (by simp)
  have hhne : l.foldl (fun h p => heapPush h (.Leaf p.1 p.2)) [] ≠ [] := by
    intro hcon
    rw [hcon] at hlen
    exact hne (List.length_eq_zero.1 hlen.symm)
  have h1 := buildLoopF_length_one
    (l.foldl (fun h p => heapPush h (.Leaf p.1 p.2)) []).length
    (l.foldl (fun h p => heapPush h (.Leaf p.1 p.2)) []) hhne (by omega)
  have hE := buildLoopF_entries (l.foldl (fun h p => heapPush h (.Leaf p.1 p.2)) []).length
    (l.foldl (fun h p => heapPush h (.Leaf p.1 p.2)) [])
  unfold buildHuffmanTree buildFromHeap at hb
  obtain ⟨pr, hpop, hfst⟩ := Option.map_eq_some'.1 hb
  obtain ⟨x, h'⟩ := pr
  simp only at hfst
  rw [← hfst]
  obtain ⟨hcmult, hclen⟩ := heapPop_coe _ _ _ hpop
  have hh'nil : h' = [] := by
    rw [h1] at hclen
    exact List.length_eq_zero.1 (by omega : h'.length = 0)
  subst hh'nil
  have hsingle : buildLoopF (l.foldl (fun h p => heapPush h (.Leaf p.1 p.2)) []).length
      (l.foldl (fun h p => heapPush h (.Leaf p.1 p.2)) []) = [x] := by
    apply List.perm_singleton.1
    apply Multiset.coe_eq_coe.1
    rw [hcmult]
    rfl
  rw [hsingle] at hE
  rw [heapEntries_perm hcoe, heapEntries_map_leaf] at hE
  rw [← hE, heapEntries_cons]
  show _ = (x.leafList : Multiset (Char × Nat)) + heapEntries []
  rw [show heapEntries [] = 0 from rfl, add_zero]

/-- A node's computed frequency is the sum of the frequencies of the
leaves beneath it. -/
theorem frequency_eq_leafSum : ∀ t : HuffmanNode,
    t.frequency = (t.leafList.map Prod.snd).sum := by
  intro t
  induction t with
  | Leaf c f => simp [HuffmanNode.frequency, HuffmanNode.leafList]
  | Internal left right ihl ihr =>
    show left.frequency + right.frequency = _
    rw [ihl, ihr]
    show _ = ((left.leafList ++ right.leafList).map Prod.snd).sum
    rw [List.map_append, List.sum_append]

/-- Every tree satisfies the frequency invariant, because an internal
node's frequency is computed on demand as the sum of its children's. -/
theorem freqInvariant_all : ∀ t : HuffmanNode, freqInvariant t := by
  intro t
  induction t with
  | Leaf c f => trivial
  | Internal left right ihl ihr => exact ⟨rfl, ihl, ihr⟩

/-- The characters the code-table generator records are exactly the
tree's leaf characters, in depth-first order. -/
theorem generateHuffmanCodes_keys : ∀ (t : HuffmanNode) (pfx : String),
    (generateHuffmanCodes t pfx).map Prod.fst = t.leafList.map Prod.fst := by
  intro t
  induction t with
  | Leaf c f => intro pfx; rfl
  | Internal left right ihl ihr =>
    intro pfx
    show ((generateHuffmanCodes left (pfx ++ "0") ++
      generateHuffmanCodes right (pfx ++ "1")).map Prod.fst) = _
    rw [List.map_append, ihl, ihr]
    show _ = (left.leafList ++ right.leafList).map Prod.fst
    rw [List.map_append]

/-- Every code the generator records extends the prefix it was started
with. -/
theorem generateHuffmanCodes_extend : ∀ (t : HuffmanNode) (pfx : String)
    (c : Char) (s : String), (c, s) ∈ generateHuffmanCodes t pfx →
    ∃ u : List Char, s.data = pfx.data ++ u := by
  intro t
  induction t with
  | Leaf c0 f =>
    intro pfx c s hmem
    simp [generateHuffmanCodes] at hmem
    exact ⟨[], by rw [hmem.2]; simp⟩
  | Internal left right ihl ihr =>
    intro pfx c s hmem
    rcases List.mem_append.1 hmem with h | h
    · obtain ⟨u, hu⟩ := ihl (pfx ++ "0") c s h
      exact ⟨'0' :: u, by rw [hu]; simp⟩
    · obtain ⟨u, hu⟩ := ihr (pfx ++ "1") c s h
      exact ⟨'1' :: u, by rw [hu]; simp⟩

/-- Codes of distinct characters never extend one another: the code of a
leaf in the left subtree continues the prefix with "0", that of a leaf in
the right subtree with "1", and within one subtree the claim holds by
induction. -/
theorem generateHuffmanCodes_no_extension : ∀ (t : HuffmanNode) (pfx : String)
    (c1 : Char) (s1 : String) (c2 : Char) (s2 : String),
    (c1, s1) ∈ generateHuffmanCodes t pfx →
    (c2, s2) ∈ generateHuffmanCodes t pfx →
    c1 ≠ c2 → ¬ ∃ u : String, s1 ++ u = s2 := by
  intro t
  induction t with
  | Leaf c0 f =>
    intro pfx c1 s1 c2 s2 h1 h2 hne
    simp [generateHuffmanCodes] at h1 h2
    exact absurd (h1.1.trans h2.1.symm) hne
  | Internal left right ihl ihr =>
    intro pfx c1 s1 c2 s2 h1 h2 hne hex
    obtain ⟨u, hu⟩ := hex
    rcases List.mem_append.1 h1 with hm1 | hm1 <;>
      rcases List.mem_append.1 h2 with hm2 | hm2
    · exact ihl (pfx ++ "0") c1 s1 c2 s2 hm1 hm2 hne ⟨u, hu⟩
    · obtain ⟨u1, hu1⟩ := generateHuffmanCodes_extend left (pfx ++ "0") c1 s1 hm1
      obtain ⟨u2, hu2⟩ := generateHuffmanCodes_extend right (pfx ++ "1") c2 s2 hm2
      have hd : s1.data ++ u.data = s2.data := by
        rw [← String.data_append, hu]
      rw [hu1, hu2] at hd
      simp at hd
    · obtain ⟨u1, hu1⟩ := generateHuffmanCodes_extend right (pfx ++ "1") c1 s1 hm1
      obtain ⟨u2, hu2⟩ := generateHuffmanCodes_extend left (pfx ++ "0") c2 s2 hm2
      have hd : s1.data ++ u.data = s2.data := by
        rw [← String.data_append, hu]
      rw [hu1, hu2] at hd
      simp at hd
    · exact ihr (pfx ++ "1") c1 s1 c2 s2 hm1 hm2 hne ⟨u, hu⟩

/-- The aggregator counts occurrences: the map built by `get_frequencies`
assigns to each character its number of occurrences in the line. -/
theorem getFrequencies_apply : ∀ (line : List Char) (f0 : Char → Nat) (c : Char),
    (line.foldl (fun freqs ch => fun c' => if c' = ch then freqs c' + 1 else freqs c') f0) c =
      f0 c + line.count c := by
  intro line
  induction line with
  | nil => intro f0 c; simp
  | cons x t ih =>
    intro f0 c
    show (t.foldl _ (fun c' => if c' = x then f0 c' + 1 else f0 c')) c = _
    rw [ih]
    by_cases hcx : c = x
    · subst hcx
      simp [List.count_cons]
      omega
    · have : (c == x) = false := by
        cases hb : c == x
        · rfl
        · exact absurd (beq_iff_eq.1 hb) hcx
      simp [List.count_cons, this, hcx]

theorem getFrequencies_eq_count (line : List Char) (c : Char) :
    getFrequencies line c = line.count c := by
  unfold getFrequencies
  rw [getFrequencies_apply]
  simp

/-- The reader's accumulation counts the concatenation of all chunks. -/
theorem getFrequenciesFromReader_apply : ∀ (chunks : List (List Char))
    (f0 : Char → Nat) (c : Char),
    (chunks.foldl (fun freqs line => fun c' => freqs c' + getFrequencies line c') f0) c =
      f0 c + chunks.flatten.count c := by
  intro chunks
  induction chunks with
  | nil => intro f0 c; simp
  | cons ch t ih =>
    intro f0 c
    show (t.foldl _ (fun c' => f0 c' + getFrequencies ch c')) c = _
    rw [ih]
    rw [getFrequencies_eq_count]
    show f0 c + ch.count c + t.flatten.count c = f0 c + (ch ++ t.flatten).count c
    rw [List.count_append]
    omega

/-- Chunk-invariance of the aggregator: aggregating any chunk sequence
equals counting the concatenated text in one pass. -/
theorem getFrequenciesFromReader_eq (chunks : List (List Char)) :
    getFrequenciesFromReader chunks = getFrequencies chunks.flatten := by
  funext c
  unfold getFrequenciesFromReader
  rw [getFrequenciesFromReader_apply, getFrequencies_eq_count]
  simp

/-- Pushing all leaves of a frequency map onto an empty heap yields a
heap, provided the heap order is transitive on the leaves involved. -/
theorem foldl_push_spec (S : List HuffmanNode) (htr : transOn S) :
    ∀ (l : List (Char × Nat)) (h0 : List HuffmanNode),
    heapProp h0 → (∀ a ∈ h0, a ∈ S) →
    (∀ p ∈ l, HuffmanNode.Leaf p.1 p.2 ∈ S) →
    heapProp (l.foldl (fun h p => heapPush h (.Leaf p.1 p.2)) h0) := by
  intro l
  induction l with
  | nil =>
    intro h0 hh hS hl
    exact hh
  | cons p t ih =>
    intro h0 hh hS hl
    have hpS : HuffmanNode.Leaf p.1 p.2 ∈ S := hl p (List.mem_cons_self p t)
    have hh1 : heapProp (heapPush h0 (.Leaf p.1 p.2)) :=
      heapPush_heapProp S htr h0 _ hh hS hpS
    have hS1 : ∀ a ∈ heapPush h0 (.Leaf p.1 p.2), a ∈ S := by
      intro a ha
      have hm : a ∈ ((heapPush h0 (.Leaf p.1 p.2) : List HuffmanNode) :
          Multiset HuffmanNode) := Multiset.mem_coe.2 ha
      rw [heapPush_coe] at hm
      rcases Multiset.mem_cons.1 hm with h | h
      · exact h ▸ hpS
      · exact hS a (Multiset.mem_coe.1 h)
    exact ih (heapPush h0 (.Leaf p.1 p.2)) hh1 hS1
      (fun q hq => hl q (List.mem_cons_of_mem p hq))

/-- C1: running the tree builder on the frequency map of scenario 3 — in
whatever order a `HashMap` enumerates its entries — produces exactly the
scenario tree, and the code-table generator run on that tree produces
exactly the table E="0", U="100", D="101", L="110", C="1110",
Z="111100", K="111101", M="11111". -/
theorem scenario3_code_table : ∀ l : List (Char × Nat), l.Perm scenarioFreqs →
    buildHuffmanTree l = some scenarioTree ∧
    generateHuffmanCodes scenarioTree ("") = scenarioTable := by
  intro l hperm
  have htr : transOn scenarioNodes := by unfold transOn; decide
  have hl : ∀ p ∈ l, HuffmanNode.Leaf p.1 p.2 ∈ scenarioNodes := by
    intro p hp
    have hp' : p ∈ scenarioFreqs := hperm.mem_iff.1 hp
    have hall : ∀ q ∈ scenarioFreqs, HuffmanNode.Leaf q.1 q.2 ∈ scenarioNodes := by decide
    exact hall p hp'
  have hheap : heapProp (l.foldl (fun h p => heapPush h (.Leaf p.1 p.2)) []) :=
    foldl_push_spec scenarioNodes htr l []
      (fun i h0i hlen => by simp at hlen) (by simp) hl
  have hcoe := initial_heap_coe l []
  rw [Multiset.coe_nil, add_zero] at hcoe
  have hmult : ((l.foldl (fun h p => heapPush h (.Leaf p.1 p.2)) [] : List HuffmanNode) :
      Multiset HuffmanNode) = (scenarioLeaves : Multiset HuffmanNode) := by
    rw [hcoe]
    exact Multiset.coe_eq_coe.2 (hperm.map _)
  exact ⟨scenario_fromHeap _ hheap hmult, by decide⟩

/-- Witness for C1 at the ascending-character enumeration order. -/
theorem scenario3_code_table_witness :
    scenarioFreqs.Perm scenarioFreqs ∧
    (buildHuffmanTree scenarioFreqs = some scenarioTree ∧
      generateHuffmanCodes scenarioTree ("") = scenarioTable) :=
  ⟨List.Perm.refl _, scenario3_code_table scenarioFreqs (List.Perm.refl _)⟩

/-- C2 counterexample: among the equal-frequency leaves for 'a' and 'b',
the leaf with the lexicographically SMALLER character 'a' is extracted
first from the queue — under either insertion order — and the leaf
holding the greater character 'b' compares strictly below it, refuting
the claim that the greater character is extracted first. -/
theorem tiebreak_greater_first_cex :
    (heapPop (heapPush (heapPush [] (.Leaf 'a' 1)) (.Leaf 'b' 1))).map Prod.fst =
      some (.Leaf 'a' 1) ∧
    (heapPop (heapPush (heapPush [] (.Leaf 'b' 1)) (.Leaf 'a' 1))).map Prod.fst =
      some (.Leaf 'a' 1) ∧
    cmpNode (.Leaf 'b' 1) (.Leaf 'a' 1) = Ordering.lt := by
  decide

/-- C2 amended: in the tree builder's priority-queue ordering, whenever
two Leaf nodes have equal frequency, the leaf holding the lexicographically
SMALLER character compares `Greater` and is extracted from the max-heap
first (character-ascending extraction priority): for any two equal-frequency
leaves, whichever order they are pushed in, the first pop returns the leaf
with the smaller character. -/
theorem tiebreak_smaller_first (c1 c2 : Char) (f : Nat) (h : c1 < c2) :
    cmpNode (.Leaf c1 f) (.Leaf c2 f) = Ordering.gt ∧
    cmpNode (.Leaf c2 f) (.Leaf c1 f) = Ordering.lt ∧
    (heapPop (heapPush (heapPush [] (.Leaf c1 f)) (.Leaf c2 f))).map Prod.fst =
      some (.Leaf c1 f) ∧
    (heapPop (heapPush (heapPush [] (.Leaf c2 f)) (.Leaf c1 f))).map Prod.fst =
      some (.Leaf c1 f) := by
  have hgt : cmpNode (.Leaf c1 f) (.Leaf c2 f) = Ordering.gt := by
    unfold cmpNode
    simp only [HuffmanNode.frequency]
    rw [Nat.compare_eq_eq.2 rfl]
    simp only [reduceIte]
    exact charCompare_gt h
  have hlt : cmpNode (.Leaf c2 f) (.Leaf c1 f) = Ordering.lt := by
    unfold cmpNode
    simp only [HuffmanNode.frequency]
    rw [Nat.compare_eq_eq.2 rfl]
    simp only [reduceIte]
    exact charCompare_lt h
  have h1 : heapPush (heapPush [] (.Leaf c1 f)) (.Leaf c2 f) =
      [.Leaf c1 f, .Leaf c2 f] := by
    show (siftUpF 1 [HuffmanNode.Leaf c1 f, .Leaf c2 f] 0 1 (.Leaf c2 f)).1 =
      [HuffmanNode.Leaf c1 f, .Leaf c2 f]
    have hle : nodeLE (HuffmanNode.Leaf c2 f)
        (hget [HuffmanNode.Leaf c1 f, .Leaf c2 f] (parentIdx 1)) = true := by
      show nodeLE (HuffmanNode.Leaf c2 f) (.Leaf c1 f) = true
      unfold nodeLE
      rw [hlt]
      rfl
    rw [siftUpF, if_pos (by decide : (0 : Nat) < 1), if_pos hle]
    rfl
  have h2 : heapPush (heapPush [] (.Leaf c2 f)) (.Leaf c1 f) =
      [.Leaf c1 f, .Leaf c2 f] := by
    show (siftUpF 1 [HuffmanNode.Leaf c2 f, .Leaf c1 f] 0 1 (.Leaf c1 f)).1 =
      [HuffmanNode.Leaf c1 f, .Leaf c2 f]
    have hle2 : nodeLE (HuffmanNode.Leaf c1 f)
        (hget [HuffmanNode.Leaf c2 f, .Leaf c1 f] (parentIdx 1)) = false := by
      show nodeLE (HuffmanNode.Leaf c1 f) (.Leaf c2 f) = false
      unfold nodeLE
      rw [hgt]
      rfl
    rw [siftUpF, if_pos (by decide : (0 : Nat) < 1), if_neg (by simp [hle2])]
    rfl
  refine ⟨hgt, hlt, ?_, ?_⟩
  · rw [h1]
    rfl
  · rw [h2]
    rfl

/-- Witness for the amended C2 at characters 'a' < 'b' and frequency 1. -/
theorem tiebreak_smaller_first_witness :
    ('a' : Char) < 'b' ∧
    (cmpNode (.Leaf 'a' 1) (.Leaf 'b' 1) = Ordering.gt ∧
      cmpNode (.Leaf 'b' 1) (.Leaf 'a' 1) = Ordering.lt ∧
      (heapPop (heapPush (heapPush [] (.Leaf 'a' 1)) (.Leaf 'b' 1))).map Prod.fst =
        some (.Leaf 'a' 1) ∧
      (heapPop (heapPush (heapPush [] (.Leaf 'b' 1)) (.Leaf 'a' 1))).map Prod.fst =
        some (.Leaf 'a' 1)) :=
  ⟨by decide, tiebreak_smaller_first 'a' 'b' 1 (by decide)⟩

/-- C3: the tree builder is NOT a function of the frequency map alone.
The two enumeration orders of the map {a:1, b:1, c:2, d:2, e:2} — one the
reverse of the other, hence the same map — produce different code tables:
the internal node made of the 'a' and 'b' leaves ties at frequency 2 with
the 'c', 'd', 'e' leaves, and `cmpNode` reports `Equal` between a leaf
and an internal node, so the extraction order depends on the heap's
internal layout, which depends on the insertion order. -/
theorem build_order_dependent :
    unstableFreqs.reverse.Perm unstableFreqs ∧
    (buildHuffmanTree unstableFreqs).map (fun t => generateHuffmanCodes t ("")) ≠
      (buildHuffmanTree unstableFreqs.reverse).map (fun t => generateHuffmanCodes t ("")) :=
  ⟨List.reverse_perm unstableFreqs, by decide⟩

/-- C4 counterexample: on the empty frequency map the builder's final
`heap.pop().unwrap()` panics — modelled as the `none` result — rather
than surfacing a typed `EmptyInputError` to the caller; no such error
type exists in the code. -/
theorem build_empty_panics : buildHuffmanTree [] = none := rfl

/-- C4 amended: the builder panics (returns no tree) exactly on the empty
frequency map; on every non-empty map it returns a proper tree, and it
never returns a null or placeholder tree. -/
theorem build_none_iff_empty : ∀ l : List (Char × Nat),
    buildHuffmanTree l = none ↔ l = [] :=
  buildHuffmanTree_eq_none_iff

/-- C5 counterexample: a frequency map containing a zero frequency is
accepted without any validation and a tree is silently produced; no
`InvalidFrequencyError` exists in the code. -/
theorem build_zero_freq_silent :
    buildHuffmanTree [('a', 0)] = some (.Leaf 'a' 0) := by
  decide

/-- C5 amended: the builder performs no frequency validation: a map
containing a zero-frequency entry — wherever the map's iteration order
yields that entry — still produces a tree, and that tree contains the
zero-frequency character as a leaf.  (Negative frequencies are
unrepresentable: the Rust frequency type is `usize`.) -/
theorem build_zero_freq_tree : ∀ (c : Char) (l : List (Char × Nat)) (t : HuffmanNode),
    (c, 0) ∈ l → buildHuffmanTree l = some t → (c, 0) ∈ t.leafList := by
  intro c l t hmem hb
  have hcoe := buildHuffmanTree_leafList l t hb
  have : (c, 0) ∈ ((t.leafList : List (Char × Nat)) : Multiset (Char × Nat)) := by
    rw [hcoe]
    exact Multiset.mem_coe.2 hmem
  exact Multiset.mem_coe.1 this

/-- Witness for the amended C5 at the map {b:1, a:0}, enumerated with the
zero-frequency entry last. -/
theorem build_zero_freq_tree_witness :
    (('a', 0) ∈ [(('b' : Char), 1), ('a', 0)]) ∧
    buildHuffmanTree [('b', 1), ('a', 0)] =
      some (.Internal (.Leaf 'a' 0) (.Leaf 'b' 1)) ∧
    ('a', 0) ∈ (HuffmanNode.Internal (.Leaf 'a' 0) (.Leaf 'b' 1)).leafList :=
  ⟨by decide, by decide,
    build_zero_freq_tree 'a' [('b', 1), ('a', 0)]
      (.Internal (.Leaf 'a' 0) (.Leaf 'b' 1)) (by decide) (by decide)⟩

/-- C6: every tree the builder returns satisfies the frequency invariant
— each internal node's frequency equals the sum of its two children's —
and the root's frequency equals the sum of all frequencies in the input
map. -/
theorem tree_frequency_invariant : ∀ (l : List (Char × Nat)) (root : HuffmanNode),
    buildHuffmanTree l = some root →
    freqInvariant root ∧ root.frequency = (l.map Prod.snd).sum := by
  intro l root hb
  refine ⟨freqInvariant_all root, ?_⟩
  rw [frequency_eq_leafSum]
  have hperm : root.leafList.Perm l :=
    Multiset.coe_eq_coe.1 (buildHuffmanTree_leafList l root hb)
  exact List.Perm.sum_eq (hperm.map _)

/-- Witness for C6 at the map {a:1, b:2}. -/
theorem tree_frequency_invariant_witness :
    buildHuffmanTree [('a', 1), ('b', 2)] = some (.Internal (.Leaf 'a' 1) (.Leaf 'b' 2)) ∧
    (freqInvariant (.Internal (.Leaf 'a' 1) (.Leaf 'b' 2)) ∧
      (HuffmanNode.Internal (.Leaf 'a' 1) (.Leaf 'b' 2)).frequency =
        ([(('a' : Char), 1), ('b', 2)].map Prod.snd).sum) :=
  ⟨by decide, tree_frequency_invariant _ _ (by decide)⟩

/-- C7: in the code table generated from a builder-produced tree, the
codes of two distinct characters never extend one another — neither code
is an initial segment of the other. -/
theorem codes_incomparable : ∀ (l : List (Char × Nat)) (root : HuffmanNode),
    buildHuffmanTree l = some root →
    ∀ (c1 : Char) (s1 : String) (c2 : Char) (s2 : String),
    (c1, s1) ∈ generateHuffmanCodes root ("") →
    (c2, s2) ∈ generateHuffmanCodes root ("") → c1 ≠ c2 →
    (¬ ∃ u : String, s1 ++ u = s2) ∧ (¬ ∃ u : String, s2 ++ u = s1) :=
  fun _ root _ c1 s1 c2 s2 h1 h2 hne =>
    ⟨generateHuffmanCodes_no_extension root _ c1 s1 c2 s2 h1 h2 hne,
     generateHuffmanCodes_no_extension root _ c2 s2 c1 s1 h2 h1 (Ne.symm hne)⟩

/-- Witness for C7 at the map {a:1, b:2} with codes "0" and "1". -/
theorem codes_incomparable_witness :
    buildHuffmanTree [('a', 1), ('b', 2)] = some (.Internal (.Leaf 'a' 1) (.Leaf 'b' 2)) ∧
    ('a', "0") ∈ generateHuffmanCodes (.Internal (.Leaf 'a' 1) (.Leaf 'b' 2)) ("") ∧
    ('b', "1") ∈ generateHuffmanCodes (.Internal (.Leaf 'a' 1) (.Leaf 'b' 2)) ("") ∧
    ('a' : Char) ≠ 'b' ∧
    ((¬ ∃ u : String, ("0" : String) ++ u = "1") ∧
      (¬ ∃ u : String, ("1" : String) ++ u = "0")) :=
  ⟨by decide, by decide, by decide, by decide,
    codes_incomparable [('a', 1), ('b', 2)] (.Internal (.Leaf 'a' 1) (.Leaf 'b' 2))
      (by decide) 'a' ("0") 'b' ("1") (by decide) (by decide) (by decide)⟩

/-- C8: the frequency aggregator is chunk-invariant — aggregating any
sequence of chunks yields the same frequency map as counting the
concatenated text in one pass, and in particular aggregating the single
chunk "abc\ndef" equals aggregating the chunks "abc\n" then "def". -/
theorem aggregator_chunk_invariance :
    (∀ chunks : List (List Char),
      getFrequenciesFromReader chunks = getFrequencies chunks.flatten) ∧
    getFrequenciesFromReader ["abc\ndef".data] =
      getFrequenciesFromReader ["abc\n".data, "def".data] := by
  refine ⟨getFrequenciesFromReader_eq, ?_⟩
  have hfl : (["abc\ndef".data] : List (List Char)).flatten =
      (["abc\n".data, "def".data] : List (List Char)).flatten := by decide
  rw [getFrequenciesFromReader_eq, getFrequenciesFromReader_eq, hfl]

/-- C9: each character of a duplicate-free frequency map appears as
exactly one leaf of the builder's tree and receives exactly one entry in
the generated code table. -/
theorem unique_leaf_and_entry : ∀ (l : List (Char × Nat)) (root : HuffmanNode),
    (l.map Prod.fst).Nodup → buildHuffmanTree l = some root →
    ∀ c ∈ l.map Prod.fst,
      (root.leafList.map Prod.fst).count c = 1 ∧
      ((generateHuffmanCodes root ("")).map Prod.fst).count c = 1 := by
  intro l root hnodup hb c hc
  have hperm : root.leafList.Perm l :=
    Multiset.coe_eq_coe.1 (buildHuffmanTree_leafList l root hb)
  have hpermf : (root.leafList.map Prod.fst).Perm (l.map Prod.fst) := hperm.map _
  have hcount : (l.map Prod.fst).count c = 1 := List.count_eq_one_of_mem hnodup hc
  constructor
  · rw [hpermf.count_eq]
    exact hcount
  · rw [generateHuffmanCodes_keys, hpermf.count_eq]
    exact hcount

/-- Witness for C9 at the map {a:1, b:2} and character 'a'. -/
theorem unique_leaf_and_entry_witness :
    ([(('a' : Char), 1), ('b', 2)].map Prod.fst).Nodup ∧
    buildHuffmanTree [('a', 1), ('b', 2)] = some (.Internal (.Leaf 'a' 1) (.Leaf 'b' 2)) ∧
    ('a' : Char) ∈ [(('a' : Char), 1), ('b', 2)].map Prod.fst ∧
    (((HuffmanNode.Internal (.Leaf 'a' 1) (.Leaf 'b' 2)).leafList.map Prod.fst).count 'a' = 1 ∧
      ((generateHuffmanCodes (.Internal (.Leaf 'a' 1) (.Leaf 'b' 2)) ("")).map Prod.fst).count 'a' = 1) :=
  ⟨by decide, by decide, by decide,
    unique_leaf_and_entry [('a', 1), ('b', 2)] (.Internal (.Leaf 'a' 1) (.Leaf 'b' 2))
      (by decide) (by decide) 'a' (by decide)⟩

/-- C10: for a frequency map with exactly one entry the builder returns
that single leaf as the root without error, and the code-table generator
started with the empty prefix maps the character to the empty code. -/
theorem singleton_map_degenerate : ∀ (c : Char) (f : Nat),
    buildHuffmanTree [(c, f)] = some (.Leaf c f) ∧
    generateHuffmanCodes (.Leaf c f) ("") = [(c, "")] :=
  fun _ _ => ⟨rfl, rfl⟩
